import Mathlib

/-!
# LiteSpec compiler — verification development

Shallow embedding of the LiteSpec DSL → JSON-Schema compiler
(`src/index.js`, current revision: nested `@if` property paths, type-gated
`@default` coercion, optional `includeUI` flag).

Conventions of the embedding:
* JavaScript strings are Lean `String`s; the scanning functions work on
  `String.data` (`List Char`).
* JavaScript numbers are modelled exactly: finite values as `Rat`,
  plus explicit `NaN` and signed-infinity constructors.  No property below
  depends on float rounding.
* JavaScript objects are association lists in key-insertion order;
  assigning an existing key keeps its position (as JS does for string keys).
* A thrown `TypeError`/`Error` is `Option.none`; mutation is explicit state
  passing.  Object identity is represented by the position of the object in
  the document (`TPath`); programs that shadow a still-open block's target
  object (re-declaring a `def` name before its `}`) are outside the scope of
  the theorems below.
-/

namespace LiteSpec

/-- JS whitespace (`\s`, `String.prototype.trim`): ASCII whitespace plus the
common Unicode space characters that occur in source text. -/
def isJsWs (c : Char) : Bool :=
  c = ' ' || c = '\t' || c = '\n' || c = '\r' || c = '\x0b' || c = '\x0c' ||
  c = ' ' || c = '﻿'

/-- JS regex `\w` = `[A-Za-z0-9_]`. -/
def isWordChar (c : Char) : Bool :=
  c.isAlphanum || c = '_'

/-- JS regex `.` excludes line terminators. -/
def isRegexNl (c : Char) : Bool :=
  c = '\n' || c = '\r' || c = ' ' || c = ' '

def trimLeftL (l : List Char) : List Char := l.dropWhile isJsWs

def trimRightL (l : List Char) : List Char := (l.reverse.dropWhile isJsWs).reverse

def jsTrimL (l : List Char) : List Char := trimRightL (trimLeftL l)

/-- `String.prototype.trim`. -/
def jsTrim (s : String) : String := ⟨jsTrimL s.data⟩

/-- `String.prototype.split` with a one-character separator. -/
def splitCharAux (sep : Char) : List Char → List Char → List String
  | [], acc => [⟨acc.reverse⟩]
  | c :: cs, acc =>
    if c = sep then ⟨acc.reverse⟩ :: splitCharAux sep cs []
    else splitCharAux sep cs (c :: acc)

def jsSplitChar (sep : Char) (s : String) : List String :=
  splitCharAux sep s.data []

/-- `String.prototype.indexOf` for a one-character needle: `none` is JS `-1`. -/
def idxOfChar (c : Char) : List Char → Option Nat
  | [] => none
  | d :: ds => if d = c then some 0 else (idxOfChar c ds).map (· + 1)

/-- `a.startsWith b`. -/
def jsStartsWith (s pre : String) : Bool := pre.data.isPrefixOf s.data

/-- `a.endsWith b`. -/
def jsEndsWith (s suf : String) : Bool := suf.data.isSuffixOf s.data

/-- `a.includes b` on char lists. -/
def containsSub (pat : List Char) : List Char → Bool
  | [] => pat.isEmpty
  | l@(_ :: cs) => pat.isPrefixOf l || containsSub pat cs

/-- `String.prototype.replace` with a plain-string pattern: first occurrence only. -/
def replaceFirstL (pat rep : List Char) : List Char → List Char
  | [] => if pat.isEmpty then rep else []
  | l@(c :: cs) =>
    if pat.isPrefixOf l then rep ++ l.drop pat.length
    else c :: replaceFirstL pat rep cs

def jsReplaceFirst (pat rep s : String) : String := ⟨replaceFirstL pat.data rep.data s.data⟩

/-- `String.prototype.substring`: negative arguments clamp to 0, large ones to
the length, and the bounds are swapped when given in reverse order. -/
def jsSubstringL (l : List Char) (a b : Int) : List Char :=
  let n : Int := l.length
  let a' := (min (max a 0) n).toNat
  let b' := (min (max b 0) n).toNat
  let x := min a' b'
  let y := max a' b'
  (l.drop x).take (y - x)

def jsSubstring (s : String) (a b : Int) : String := ⟨jsSubstringL s.data a b⟩

/-- `String.prototype.slice`: negative arguments count from the end; an empty
or inverted range gives `""`. -/
def jsSlice (s : String) (a b : Int) : String :=
  let n : Int := s.data.length
  let norm : Int → Nat := fun i => (if i < 0 then max (n + i) 0 else min i n).toNat
  let x := norm a
  let y := norm b
  ⟨(s.data.drop x).take (y - x)⟩

/-- `String.prototype.toLowerCase` (ASCII range, which is all the source uses). -/
def jsToLower (s : String) : String := ⟨s.data.map Char.toLower⟩

/-! ## JavaScript values -/

/-- A JavaScript/JSON value as the compiler produces them.  Finite numbers are
exact rationals; `jnan` and `jinf` keep the embedding total on the
`Number`/`parseFloat`/`parseInt` corner cases. -/
inductive JVal where
  | jstr (s : String)
  | jbool (b : Bool)
  | jnum (q : Rat)
  | jnan
  | jinf (neg : Bool)
  | jarr (elems : List JVal)
  | jobj (fields : List (String × JVal))
  deriving Repr

/-- Object member lookup. -/
def lookupKey (o : List (String × JVal)) (k : String) : Option JVal :=
  match o with
  | [] => none
  | (k', v) :: rest => if k' = k then some v else lookupKey rest k

/-- JS property assignment `o[k] = v`: overwrite in place, else append. -/
def setKey (o : List (String × JVal)) (k : String) (v : JVal) : List (String × JVal) :=
  match o with
  | [] => [(k, v)]
  | (k', v') :: rest => if k' = k then (k', v) :: rest else (k', v') :: setKey rest k v

/-- JS `delete o[k]`. -/
def deleteKey (o : List (String × JVal)) (k : String) : List (String × JVal) :=
  match o with
  | [] => []
  | (k', v') :: rest => if k' = k then rest else (k', v') :: deleteKey rest k

/-! ## JavaScript number parsing -/

def hexDigit? (c : Char) : Option Nat :=
  if c.isDigit then some (c.toNat - 48)
  else if 'a' ≤ c ∧ c ≤ 'f' then some (c.toNat - 87)
  else if 'A' ≤ c ∧ c ≤ 'F' then some (c.toNat - 55)
  else none

def isHexDigit (c : Char) : Bool := (hexDigit? c).isSome

def digitsToNat (l : List Char) : Nat :=
  l.foldl (fun n c => n * 10 + (c.toNat - 48)) 0

def hexToNat (l : List Char) : Nat :=
  l.foldl (fun n c => n * 16 + ((hexDigit? c).getD 0)) 0

def octToNat (l : List Char) : Nat :=
  l.foldl (fun n c => n * 8 + (c.toNat - 48)) 0

def binToNat (l : List Char) : Nat :=
  l.foldl (fun n c => n * 2 + (c.toNat - 48)) 0

/-- Parse an (unsigned) decimal literal `Digits [. Digits] [Exponent]` or
`. Digits [Exponent]` as a prefix; returns its exact value and the unconsumed
rest.  The exponent is consumed only when well-formed, as a regex would. -/
def decLit? (l : List Char) : Option (Rat × List Char) :=
  let ip := l.takeWhile Char.isDigit
  let r1 := l.drop ip.length
  let withFrac : Option (Rat × List Char) :=
    match r1 with
    | '.' :: r2 =>
      let fp := r2.takeWhile Char.isDigit
      if ip.isEmpty ∧ fp.isEmpty then none
      else some ((digitsToNat ip : Rat) + (digitsToNat fp : Rat) / ((10 : Rat) ^ fp.length),
                 r2.drop fp.length)
    | _ => if ip.isEmpty then none else some ((digitsToNat ip : Rat), r1)
  match withFrac with
  | none => none
  | some (m, r) =>
    match r with
    | 'e' :: r3 => some (expPart m r 'e' r3)
    | 'E' :: r3 => some (expPart m r 'E' r3)
    | _ => some (m, r)
where
  expPart (m : Rat) (r : List Char) (_e : Char) (r3 : List Char) : Rat × List Char :=
    let (sgn, r4) : Int × List Char :=
      match r3 with
      | '+' :: r4 => (1, r4)
      | '-' :: r4 => (-1, r4)
      | _ => (1, r3)
    let ds := r4.takeWhile Char.isDigit
    if ds.isEmpty then (m, r)
    else (m * (10 : Rat) ^ (sgn * (digitsToNat ds : Int)), r4.drop ds.length)

/-- `Number(string)` (`StringNumericLiteral`): whole-string conversion;
`""` is `0`, failure is `NaN`. -/
def jsToNumber (s : String) : JVal :=
  let t := jsTrimL s.data
  match t with
  | [] => .jnum 0
  | '0' :: c :: rest =>
    if c = 'x' ∨ c = 'X' then
      if rest ≠ [] ∧ rest.all isHexDigit then .jnum (hexToNat rest : Rat) else .jnan
    else if c = 'o' ∨ c = 'O' then
      if rest ≠ [] ∧ rest.all (fun d => '0' ≤ d ∧ d ≤ '7') then .jnum (octToNat rest : Rat) else .jnan
    else if c = 'b' ∨ c = 'B' then
      if rest ≠ [] ∧ rest.all (fun d => d = '0' ∨ d = '1') then .jnum (binToNat rest : Rat) else .jnan
    else decimalCase t
  | _ => decimalCase t
where
  decimalCase (t : List Char) : JVal :=
    let (neg, t1) : Bool × List Char :=
      match t with
      | '+' :: r => (false, r)
      | '-' :: r => (true, r)
      | _ => (false, t)
    if t1 = "Infinity".data then .jinf neg
    else
      match decLit? t1 with
      | some (q, []) => .jnum (if neg then -q else q)
      | _ => .jnan

/-- `isNaN(string)`: true when `ToNumber` yields `NaN`. -/
def jsIsNaN (s : String) : Bool :=
  match jsToNumber s with
  | .jnan => true
  | _ => false

/-- `parseFloat(string)`: longest numeric prefix after whitespace; `NaN` on none. -/
def jsParseFloat (s : String) : JVal :=
  let t := trimLeftL s.data
  let (neg, t1) : Bool × List Char :=
    match t with
    | '+' :: r => (false, r)
    | '-' :: r => (true, r)
    | _ => (false, t)
  if "Infinity".data.isPrefixOf t1 then .jinf neg
  else
    match decLit? t1 with
    | some (q, _) => .jnum (if neg then -q else q)
    | none => .jnan

/-- `parseInt(string)` with no radix argument. -/
def jsParseInt (s : String) : JVal :=
  let t := trimLeftL s.data
  let (neg, t1) : Bool × List Char :=
    match t with
    | '+' :: r => (false, r)
    | '-' :: r => (true, r)
    | _ => (false, t)
  match t1 with
  | '0' :: c :: rest =>
    if (c = 'x' ∨ c = 'X') ∧ (rest.takeWhile isHexDigit) ≠ [] then
      let ds := rest.takeWhile isHexDigit
      .jnum (if neg then -(hexToNat ds : Rat) else (hexToNat ds : Rat))
    else decDigits neg t1
  | _ => decDigits neg t1
where
  decDigits (neg : Bool) (t1 : List Char) : JVal :=
    let ds := t1.takeWhile Char.isDigit
    if ds.isEmpty then .jnan
    else .jnum (if neg then -(digitsToNat ds : Rat) else (digitsToNat ds : Rat))

/-! ## Attribute tokenizer (`extractAttributes`) -/

/-- The depth update inside `extractAttributes`' inner loop. -/
def eaDepth (d : Nat) (c : Char) : Nat :=
  if c = '(' then d + 1 else if c = ')' then d - 1 else d

/-- The balanced-parenthesis inner loop of `extractAttributes`: consume
characters maintaining a depth counter (started at 1 past the opening `(`)
until the depth returns to 0 or the input ends; returns the consumed
characters and the rest. -/
def eaBal : Nat → List Char → (List Char × List Char)
  | _, [] => ([], [])
  | d, c :: cs =>
    if eaDepth d c = 0 then ([c], cs)
    else
      let p := eaBal (eaDepth d c) cs
      (c :: p.1, p.2)

/-- One token of `extractAttributes`, scanned just after an `@`: the
identifier, then if a `(` follows everything through the matching `)` (or to
the end of the string when unbalanced); returns the token body (without the
`@`) and the rest of the input. -/
def eaTok (rest : List Char) : List Char × List Char :=
  match rest.drop (rest.takeWhile isWordChar).length with
  | '(' :: r2 =>
    ((rest.takeWhile isWordChar) ++ '(' :: (eaBal 1 r2).1, (eaBal 1 r2).2)
  | r1 => (rest.takeWhile isWordChar, r1)

/-- The character scan of `extractAttributes`, with an explicit step budget:
every iteration of the source's `while` loop advances `i` by at least one, so
a budget of the input length never runs out (`eaScanF_fuel`), and the
structural recursion on the budget lets concrete runs evaluate by `rfl`. -/
def eaScanF : Nat → List Char → List String
  | 0, _ => []
  | _, [] => []
  | fuel + 1, c :: rest =>
    if c = '@' then
      (⟨'@' :: (eaTok rest).1⟩ : String) :: eaScanF fuel (eaTok rest).2
    else eaScanF fuel rest

/-- The character scan of `extractAttributes`. -/
def eaScan (cs : List Char) : List String := eaScanF cs.length cs

/-- `extractAttributes(typeString)` from the source. -/
def extractAttributes (typeString : String) : List String := eaScan typeString.data

/-! ## Regex emulation

Each JS regex used by the compiler is small enough that its leftmost-match
semantics can be replayed directly: try a match at each position, moving one
character right on failure. -/

/-- `/lit(.*?)\)/`-style search: the literal `lit` (ending in the opening
parenthesis) followed by a lazy group up to the next `)` with no intervening
line terminator. -/
def findLitLazyParen (lit : List Char) : List Char → Option String
  | [] => none
  | l@(_ :: cs) =>
    if lit.isPrefixOf l then
      let after := l.drop lit.length
      let v := after.takeWhile (fun c => !(c = ')' || isRegexNl c))
      match after.drop v.length with
      | ')' :: _ => some ⟨v⟩
      | _ => findLitLazyParen lit cs
    else findLitLazyParen lit cs

/-- `/(@[a-zA-Z0-9_]+)\(([^)]+)\)/`: returns the annotation name (with the
`@`) and the raw argument up to the first `)`. -/
def findAttrMatch : List Char → Option (String × String)
  | [] => none
  | c :: cs =>
    if c = '@' then
      let w := cs.takeWhile isWordChar
      if w.isEmpty then findAttrMatch cs
      else
        match cs.drop w.length with
        | '(' :: cs2 =>
          let v := cs2.takeWhile (fun d => d != ')')
          if v.isEmpty then findAttrMatch cs
          else
            match cs2.drop v.length with
            | ')' :: _ => some (⟨'@' :: w⟩, ⟨v⟩)
            | _ => findAttrMatch cs
        | _ => findAttrMatch cs
    else findAttrMatch cs

/-- `/\d+/`: the first maximal digit run. -/
def findDigitRun : List Char → Option String
  | [] => none
  | c :: cs => if c.isDigit then some ⟨c :: cs.takeWhile Char.isDigit⟩ else findDigitRun cs

/-- `/model (\w+)/`. -/
def findModelName : List Char → Option String
  | [] => none
  | l@(_ :: cs) =>
    if "model ".data.isPrefixOf l then
      let after := l.drop 6
      let w := after.takeWhile isWordChar
      if w.isEmpty then findModelName cs else some ⟨w⟩
    else findModelName cs

/-- `/def (\w+) (object|array)/`: definition name and shape. -/
def findDefHead : List Char → Option (String × String)
  | [] => none
  | l@(_ :: cs) =>
    if "def ".data.isPrefixOf l then
      let after := l.drop 4
      let w := after.takeWhile isWordChar
      if w.isEmpty then findDefHead cs
      else
        match after.drop w.length with
        | ' ' :: r2 =>
          if "object".data.isPrefixOf r2 then some (⟨w⟩, "object")
          else if "array".data.isPrefixOf r2 then some (⟨w⟩, "array")
          else findDefHead cs
        | _ => findDefHead cs
    else findDefHead cs

/-- `/@if\(([^:]+):\s*/`: the property text and the length of the matched text
(`ifMatch[0].length`), which the caller uses to cut off the remainder. -/
def findIfHead : List Char → Option (String × Nat)
  | [] => none
  | l@(_ :: cs) =>
    if "@if(".data.isPrefixOf l then
      let after := l.drop 4
      let p := after.takeWhile (fun c => c != ':')
      if p.isEmpty then findIfHead cs
      else
        match after.drop p.length with
        | ':' :: r2 =>
          let ws := r2.takeWhile isJsWs
          some (⟨p⟩, 4 + p.length + 1 + ws.length)
        | _ => findIfHead cs
    else findIfHead cs

/-- `/array\((\w+)\)/`. -/
def findArrayType : List Char → Option String
  | [] => none
  | l@(_ :: cs) =>
    if "array(".data.isPrefixOf l then
      let after := l.drop 6
      let w := after.takeWhile isWordChar
      if w.isEmpty then findArrayType cs
      else
        match after.drop w.length with
        | ')' :: _ => some ⟨w⟩
        | _ => findArrayType cs
    else findArrayType cs

/-- `/array\(@ref\((\w+)\)/`. -/
def findArrayRefType : List Char → Option String
  | [] => none
  | l@(_ :: cs) =>
    if "array(@ref(".data.isPrefixOf l then
      let after := l.drop 11
      let w := after.takeWhile isWordChar
      if w.isEmpty then findArrayRefType cs
      else
        match after.drop w.length with
        | ')' :: _ => some ⟨w⟩
        | _ => findArrayRefType cs
    else findArrayRefType cs

/-- `/@pattern\((.*)\)$/`: greedy group to a final `)` anchored at the end of
the string (or just before one trailing newline, as JS `$` allows), with no
line terminator inside the group. -/
def findPatternArg : List Char → Option String
  | [] => none
  | l@(_ :: cs) =>
    if "@pattern(".data.isPrefixOf l then
      let after := l.drop 9
      match patternAt after with
      | some g => some g
      | none => findPatternArg cs
    else findPatternArg cs
where
  patternAt (after : List Char) : Option String :=
    if after.getLast? = some ')' ∧ (after.dropLast.all (fun c => !isRegexNl c)) then
      some ⟨after.dropLast⟩
    else
      match after.reverse with
      | '\n' :: ')' :: g => if g.all (fun c => !isRegexNl c) then some ⟨g.reverse⟩ else none
      | _ => none

/-- The component of the `}`-handler and `@if` splitter that looks for the
first `,` at parenthesis depth 0, tracking depth as an integer exactly as the
source's counter does. -/
def depthSplitIdx (d : Int) (i : Nat) : List Char → Option Nat
  | [] => none
  | c :: cs =>
    if c = '(' then depthSplitIdx (d + 1) (i + 1) cs
    else if c = ')' then depthSplitIdx (d - 1) (i + 1) cs
    else if c = ',' ∧ d = 0 then some i
    else depthSplitIdx d (i + 1) cs

/-- `/(\w+):\s*"([^"]*)"/` continuation after the key: colon, optional
whitespace, and a double-quoted value; returns the value and the rest. -/
def permAfterKey : List Char → Option (String × List Char)
  | ':' :: r =>
    match r.dropWhile isJsWs with
    | '"' :: r2 =>
      match r2.drop (r2.takeWhile (fun c => c != '"')).length with
      | '"' :: rest => some (⟨r2.takeWhile (fun c => c != '"')⟩, rest)
      | _ => none
    | _ => none
  | _ => none

/-- The search for the next match of `/(\w+):\s*"([^"]*)"/`: the key (maximal
word run), the quoted value, and the rest of the input after the match. -/
def permNext : List Char → Option ((String × String) × List Char)
  | [] => none
  | l@(c :: cs) =>
    if isWordChar c then
      match permAfterKey (l.drop (c :: cs.takeWhile isWordChar).length) with
      | some (v, rest) => some ((⟨c :: cs.takeWhile isWordChar⟩, v), rest)
      | none => permNext cs
    else permNext cs

/-- `matchAll` loop with an explicit step budget (each match consumes at
least one character, so the input length suffices — `permScanF_fuel`). -/
def permScanF : Nat → List Char → List (String × String)
  | 0, _ => []
  | fuel + 1, l =>
    match permNext l with
    | some (kv, rest) => kv :: permScanF fuel rest
    | none => []

/-- `matchAll` of `/(\w+):\s*"([^"]*)"/g`: every key/value pair in order,
scanning resuming after each match. -/
def permScan (l : List Char) : List (String × String) := permScanF l.length l

/-! ## Expression compilers -/

/-- JS array destructuring `[a = d1, b = d2] = parts` for a split result
(`split` never yields an empty array, so only the second default can fire). -/
def destr2 (parts : List String) (d1 d2 : String) : String × String :=
  match parts with
  | [] => (d1, d2)
  | [a] => (a, d2)
  | a :: b :: _ => (a, b)

/-- `handleBreadcrumbExpression` from the source. -/
def handleBreadcrumbExpression (expression : String) : Option JVal :=
  (findLitLazyParen "@breadcrumb(".data expression.data).map fun m =>
    let p := destr2 (jsSplitChar ',' m) "" ""
    .jobj [("name", .jstr p.1), ("suffix", .jstr p.2)]

/-- `handleSortExpression` from the source. -/
def handleSortExpression (expression : String) : Option JVal :=
  (findLitLazyParen "@sort(".data expression.data).map fun m =>
    let p := destr2 (jsSplitChar ',' m) "" "asc"
    .jobj [("name", .jstr p.1), ("dir", .jstr p.2)]

/-- `handlePermExpression` from the source.  `String.prototype.matchAll`
returns an iterator, which is never falsy, so the `if (!matches) throw`
guard in the source is dead code and the function always returns — with an
empty object when no pair matches. -/
def handlePermExpression (expression : String) : List (String × JVal) :=
  (permScan expression.data).foldl (fun o kv => setKey o kv.1 (.jstr kv.2)) []

/-- The condition-value coercion ladder of `handleIfExpression` (quoted
string unwrap via `slice(1,-1)`, boolean literals, `!isNaN` → `Number`). -/
def coerceCondValue (v : String) : JVal :=
  if jsStartsWith v "\"" && jsEndsWith v "\"" then .jstr (jsSlice v 1 (-1))
  else if v = "true" then .jbool true
  else if v = "false" then .jbool false
  else if !jsIsNaN v then jsToNumber v
  else .jstr v

/-- `conditionType.replace('@', '')` — first occurrence only. -/
def stripAtSign (s : String) : String := jsReplaceFirst "@" "" s

/-- One iteration of the condition loop of `handleIfExpression`: an attribute
that fails the inner regex is skipped (`continue`); `@enum` splits the coerced
value, which throws (`none`) if coercion produced a non-string. -/
def condKeyStep (o : List (String × JVal)) (attr : String) : Option (List (String × JVal)) :=
  match findAttrMatch attr.data with
  | none => some o
  | some (ctype, cval) =>
    let v := coerceCondValue cval
    if ctype = "@enum" then
      match v with
      | .jstr s =>
        some (setKey o (stripAtSign ctype)
          (.jarr ((jsSplitChar ',' s).map (fun m => .jstr (jsTrim (jsReplaceFirst "\"" "" m))))))
      | _ => none
    else some (setKey o (stripAtSign ctype) v)

/-- The nested-property construction of `handleIfExpression`: the loop starts
from `schema.if.properties = {}` and, walking the dotted path with a cursor,
gives every non-terminal segment a fresh `{properties: {}}` and the terminal
segment the condition keywords. -/
def buildIfProps (path : List String) (leaf : List (String × JVal)) : List (String × JVal) :=
  match path with
  | [] => []
  | [p] => [(p, .jobj leaf)]
  | p :: rest => [(p, .jobj [("properties", .jobj (buildIfProps rest leaf))])]

/-- One iteration of the action loop of `handleIfExpression`: `@required`
pushes onto `then.required`; a two-part `target,value` argument writes a
coerced constraint under `then.properties[target]`; anything else writes the
raw value at the root of `then`. -/
def thenStep (o : List (String × JVal)) (attr : String) : Option (List (String × JVal)) :=
  match findAttrMatch attr.data with
  | none => some o
  | some (atype, aval) =>
    if atype = "@required" then
      match lookupKey o "required" with
      | none => some (setKey o "required" (.jarr [.jstr aval]))
      | some (.jarr xs) => some (setKey o "required" (.jarr (xs ++ [.jstr aval])))
      | some _ => none
    else
      match jsSplitChar ',' aval with
      | [p1, p2] =>
        let targetProperty := jsTrim p1
        let cv := jsTrim p2
        let cvv : JVal :=
          if !jsIsNaN cv then jsToNumber cv
          else if cv = "true" then .jbool true
          else if cv = "false" then .jbool false
          else .jstr cv
        let props : List (String × JVal) :=
          match lookupKey o "properties" with
          | some (.jobj po) => po
          | _ => []
        let tgt : List (String × JVal) :=
          match lookupKey props targetProperty with
          | some (.jobj t) => t
          | _ => []
        some (setKey o "properties"
          (.jobj (setKey props targetProperty (.jobj (setKey tgt (stripAtSign atype) cvv)))))
      | _ => some (setKey o (stripAtSign atype) (.jstr aval))

/-- `handleIfExpression` from the source: match the head, split condition from
action at the first depth-0 comma, tokenize both, build the nested `if`
fragment and the `then` fragment. -/
def handleIfExpression (expression : String) : Option JVal := do
  let (property, mlen) ← findIfHead expression.data
  let remaining := expression.data.drop mlen
  let splitIndex ← depthSplitIdx 0 0 remaining
  let cond := jsTrim ⟨jsSubstringL remaining 0 splitIndex⟩
  let action := jsTrim ⟨jsSubstringL remaining (splitIndex + 1) ((remaining.length : Int) - 1)⟩
  let condAttributes := eaScan cond.data
  let actionAttributes := eaScan action.data
  let propertyPath := jsSplitChar '.' property
  let leaf ← condAttributes.foldlM condKeyStep []
  let thenObj ← actionAttributes.foldlM thenStep []
  return .jobj
    [("if", .jobj [("properties", .jobj (buildIfProps propertyPath leaf))]),
     ("then", .jobj thenObj)]

/-! ## Attribute interpreter (`handleAttributes`) -/

/-- The mutable context handed to `handleAttributes`: the enclosing scope
frame's required-field list and its UI map (`null` when `includeUI` is off).
The caller may also pass JS `undefined` (no frame on the stack), modelled as
`Option Ctx = none`; dereferencing it throws. -/
structure Ctx where
  requiredFields : List String
  ui : Option (List (String × JVal))
  deriving Repr

/-- The state mutated by `handleAttributes`: the field schema fragment, the
context (or `undefined`), and the field-permission list. -/
structure AttrOut where
  schema : List (String × JVal)
  ctx : Option Ctx
  perms : List JVal
  deriving Repr

/-- The shared `parseInt(attr.match(/\d+/)[0])` numeric-keyword branches of
`handleAttributes`. -/
def numKey (st : AttrOut) (key : String) (attr : String) : Option AttrOut :=
  match findDigitRun attr.data with
  | none => none
  | some ds => some { st with schema := setKey st.schema key (jsParseInt ds) }

/-- `defaultValue.replace(/^["']|["']$/g, '')`. -/
def stripEdgeQuotes (s : String) : String :=
  let l := s.data
  let l2 : List Char :=
    match l with
    | c :: rest => if c = '"' || c = '\'' then rest else l
    | [] => []
  match l2.getLast? with
  | some c => if c = '"' || c = '\'' then ⟨l2.dropLast⟩ else ⟨l2⟩
  | none => ⟨l2⟩

/-- `fieldSchema.type === 'number' || fieldSchema.type === 'integer'`. -/
def isNumericType (schema : List (String × JVal)) : Bool :=
  match lookupKey schema "type" with
  | some (.jstr t) => t = "number" || t = "integer"
  | _ => false

/-- One iteration of the `attributes.forEach` loop of `handleAttributes`,
with the branch chain in source order.  `none` is a thrown `TypeError`
(a failed `.match(...)[1]` lookup or a dereference of an undefined
context). -/
def attrStep (field type : String) (st : AttrOut) (attr : String) : Option AttrOut :=
  if jsStartsWith attr "@can" then
    some { st with perms := st.perms ++ [.jobj [(field, .jobj (handlePermExpression attr))]] }
  else if jsStartsWith attr "@enum" then
    match findLitLazyParen "@enum(".data type.data with
    | none => none
    | some enums =>
      let e : JVal := .jarr ((jsSplitChar ',' enums).map (fun m => .jstr (jsTrim m)))
      some { st with schema := setKey st.schema "enum" e }
  else if jsStartsWith attr "@ref" then
    match findLitLazyParen "@ref(".data type.data with
    | none => none
    | some refName =>
      some { st with schema := setKey st.schema "$ref" (.jstr ("#/$defs/" ++ jsToLower refName)) }
  else if jsStartsWith attr "@required" then
    match st.ctx with
    | none => none
    | some c => some { st with ctx := some { c with requiredFields := c.requiredFields ++ [field] } }
  else if jsStartsWith attr "@ui" then
    match st.ctx with
    | none => none
    | some c =>
      match c.ui with
      | none => some st
      | some u =>
        match findLitLazyParen "@ui(".data attr.data with
        | none => none
        | some m =>
          let parts := jsSplitChar ',' m
          let slot : Nat → String := fun i => (parts.get? i).getD ""
          let ord : JVal := match parts.get? 3 with
            | some s => jsParseInt s
            | none => .jnum 0
          let uiObj : JVal := .jobj
            [("uiType", .jstr (slot 0)), ("uiListType", .jstr (slot 1)),
             ("uiOrder", ord), ("uiGroup", .jstr (slot 2)),
             ("uiLookup", .jstr (slot 4)), ("uiCollection", .jstr (slot 5)),
             ("uiCollectionDisplayMember", .jstr (slot 6)),
             ("uiCollectionValueMember", .jstr (slot 7))]
          some { st with ctx := some { c with ui := some (setKey u field uiObj) } }
  else if jsStartsWith attr "@minItems" then
    numKey st "minItems" attr
  else if jsStartsWith attr "@maxItems" then
    numKey st "maxItems" attr
  else if jsStartsWith attr "@uniqueItems" then
    some { st with schema := setKey st.schema "uniqueItems" (.jbool true) }
  else if jsStartsWith attr "@minLength" then
    numKey st "minLength" attr
  else if jsStartsWith attr "@maxLength" then
    numKey st "maxLength" attr
  else if jsStartsWith attr "@exclusiveMinimum" then
    numKey st "exclusiveMinimum" attr
  else if jsStartsWith attr "@exclusiveMaximum" then
    numKey st "exclusiveMaximum" attr
  else if jsStartsWith attr "@minimum" then
    numKey st "minimum" attr
  else if jsStartsWith attr "@maximum" then
    numKey st "maximum" attr
  else if jsStartsWith attr "@multipleOf" then
    numKey st "multipleOf" attr
  else if jsStartsWith attr "@format" then
    match findLitLazyParen "(".data attr.data with
    | none => none
    | some format =>
      if format = "date-time" then
        let anyOf : JVal := .jarr
          [.jobj [("type", .jstr "string"), ("format", .jstr "date-time")],
           .jobj [("type", .jstr "string"), ("enum", .jarr [.jstr ""])]]
        some { st with schema := deleteKey (setKey st.schema "anyOf" anyOf) "type" }
      else
        some { st with schema := setKey st.schema "format" (.jstr format) }
  else if jsStartsWith attr "@pattern" then
    match findPatternArg attr.data with
    | none => some st
    | some p => some { st with schema := setKey st.schema "pattern" (.jstr p) }
  else if jsStartsWith attr "@default" then
    match findLitLazyParen "(".data attr.data with
    | none => none
    | some defaultValue =>
      let dv : JVal :=
        if defaultValue = "\"\"" then .jstr ""
        else if defaultValue = "true" ∨ defaultValue = "false" then .jbool (defaultValue = "true")
        else if !jsIsNaN defaultValue ∧ isNumericType st.schema then jsParseFloat defaultValue
        else .jstr (stripEdgeQuotes defaultValue)
      some { st with schema := setKey st.schema "default" dv }
  else
    some st

/-- `handleAttributes` from the source: fold the branch chain over the
attribute tokens. -/
def handleAttributes (attributes : List String) (field type : String) (st : AttrOut) :
    Option AttrOut :=
  attributes.foldlM (attrStep field type) st

/-! ## Scope stack and block dispatcher (`parseDSL`)

The JS code mutates a shared `currentObject` reference; every object a frame
can reference is the schema root, a registered definition, or the `items` of
an array definition, so object identity is modelled by the document path
`TPath` and mutation by functional update along that path. -/

inductive TPath where
  | root
  | defObj (name : String)
  | defItems (name : String)
  deriving DecidableEq, Repr

/-- A scope frame: which object receives properties, and the required-field
accumulator (`frame.ui` is recovered from the path, see `uiAt`). -/
structure Frame where
  path : TPath
  requiredFields : List String
  deriving Repr

/-- The whole mutable state of one `parseDSL` call. -/
structure PState where
  root : List (String × JVal)
  rules : List JVal
  sortRules : List JVal
  breadcrumbRules : List JVal
  permissions : List (String × JVal)
  fieldPermissions : List JVal
  stack : List Frame
  cur : TPath
  deriving Repr

/-- Resolve a path to the member list of the object it denotes. -/
def getObjAt (rootO : List (String × JVal)) (p : TPath) : Option (List (String × JVal)) :=
  match p with
  | .root => some rootO
  | .defObj n =>
    match lookupKey rootO "$defs" with
    | some (.jobj defs) =>
      match lookupKey defs n with
      | some (.jobj o) => some o
      | _ => none
    | _ => none
  | .defItems n =>
    match lookupKey rootO "$defs" with
    | some (.jobj defs) =>
      match lookupKey defs n with
      | some (.jobj o) =>
        match lookupKey o "items" with
        | some (.jobj it) => some it
        | _ => none
      | _ => none
    | _ => none

/-- Replace the object a path denotes (unreachable failures are `none`). -/
def setObjAt (rootO : List (String × JVal)) (p : TPath) (newObj : List (String × JVal)) :
    Option (List (String × JVal)) :=
  match p with
  | .root => some newObj
  | .defObj n =>
    match lookupKey rootO "$defs" with
    | some (.jobj defs) =>
      match lookupKey defs n with
      | some (.jobj _) => some (setKey rootO "$defs" (.jobj (setKey defs n (.jobj newObj))))
      | _ => none
    | _ => none
  | .defItems n =>
    match lookupKey rootO "$defs" with
    | some (.jobj defs) =>
      match lookupKey defs n with
      | some (.jobj o) =>
        match lookupKey o "items" with
        | some (.jobj _) =>
          some (setKey rootO "$defs" (.jobj (setKey defs n (.jobj (setKey o "items" (.jobj newObj))))))
        | _ => none
      | _ => none
    | _ => none

/-- The `ui` member of the object a frame references. -/
def uiAt (rootO : List (String × JVal)) (p : TPath) : Option (List (String × JVal)) :=
  match getObjAt rootO p with
  | some o =>
    match lookupKey o "ui" with
    | some (.jobj u) => some u
    | _ => none
  | none => none

/-- `stack[stack.length - 1]` as the context handed to `handleAttributes`;
`none` models JS `undefined` on an empty stack. -/
def mkCtx (includeUI : Bool) (σ : PState) : Option Ctx :=
  match σ.stack with
  | [] => none
  | fr :: _ =>
    some { requiredFields := fr.requiredFields,
           ui := if includeUI then uiAt σ.root fr.path else none }

/-- Clear the per-block accumulators (done on every block open and close). -/
def resetAccums (σ : PState) : PState :=
  { σ with rules := [], sortRules := [], breadcrumbRules := [],
           permissions := [], fieldPermissions := [] }

/-- The context write-back of the field branches: the top frame takes the
mutated required-field list, and the frame's `ui` object (captured by
reference in JS) is stored back into the document. -/
def commitRS (σ : PState) (st' : AttrOut) : List (String × JVal) × List Frame :=
  match σ.stack, st'.ctx with
  | fr :: rest, some c =>
    (match c.ui with
     | some u =>
       match getObjAt σ.root fr.path with
       | some o => (setObjAt σ.root fr.path (setKey o "ui" (.jobj u))).getD σ.root
       | none => σ.root
     | none => σ.root,
     { fr with requiredFields := c.requiredFields } :: rest)
  | s, _ => (σ.root, s)

/-- After `handleAttributes`: write the context back into the top frame and
its `ui` object, then store the field schema under
`currentObject.properties[field]` (a `TypeError` — `none` — when the current
object has no `properties`). -/
def commitField (σ : PState) (field : String) (st' : AttrOut) : Option PState :=
  match getObjAt (commitRS σ st').1 σ.cur with
  | none => none
  | some o =>
    match lookupKey o "properties" with
    | some (.jobj po) =>
      match setObjAt (commitRS σ st').1 σ.cur
          (setKey o "properties" (.jobj (setKey po field (.jobj st'.schema)))) with
      | none => none
      | some root2 =>
        some { σ with root := root2, stack := (commitRS σ st').2, fieldPermissions := st'.perms }
    | _ => none

/-- `line.indexOf(':')` as the source uses it. -/
def colonIdx (l : String) : Int :=
  match idxOfChar ':' l.data with
  | some i => (i : Int)
  | none => -1

/-- One iteration of the `lines.forEach` dispatcher of `parseDSL`. -/
def lineStep (includeUI : Bool) (σ : PState) (line : String) : Option PState :=
  if jsStartsWith line "def " then
    match findDefHead line.data with
    | none => none
    | some (defName, defType) =>
      let σ := resetAccums σ
      let base : List (String × JVal) :=
        [("type", .jstr "object"), ("properties", .jobj [])] ++
          (if includeUI then [("ui", .jobj [])] else [])
      let key := jsToLower defName
      let dp : JVal × TPath :=
        if defType = "object" then (.jobj base, .defObj key)
        else (.jobj [("type", .jstr "array"), ("items", .jobj base)], .defItems key)
      match lookupKey σ.root "$defs" with
      | some (.jobj defs) =>
        some { σ with root := setKey σ.root "$defs" (.jobj (setKey defs key dp.1)),
                      cur := dp.2,
                      stack := { path := dp.2, requiredFields := [] } :: σ.stack }
      | _ => none
  else if jsStartsWith line "model " then
    match findModelName line.data with
    | none => none
    | some name =>
      let σ := resetAccums σ
      let r1 := setKey σ.root "title" (.jstr (jsToLower name))
      let r2 := setKey r1 "type" (.jstr "object")
      let r3 := setKey r2 "properties" (.jobj [])
      let r4 := if includeUI then setKey r3 "ui" (.jobj []) else r3
      some { σ with root := r4, cur := .root,
                    stack := { path := .root, requiredFields := [] } :: σ.stack }
  else if jsStartsWith line "\x7d" then
    match σ.stack with
    | [] => none
    | fr :: restStack =>
      match getObjAt σ.root fr.path with
      | none => none
      | some obj =>
        let o1 := if fr.requiredFields.isEmpty then obj
                  else setKey obj "required" (.jarr (fr.requiredFields.map .jstr))
        let o2 := if σ.rules.isEmpty then o1 else setKey o1 "allOf" (.jarr σ.rules)
        let o3 := if σ.sortRules.isEmpty then o2 else setKey o2 "sort" (.jarr σ.sortRules)
        let o4 := if σ.breadcrumbRules.isEmpty then o3
                  else setKey o3 "breadcrumb" (.jarr σ.breadcrumbRules)
        let o5 := if σ.permissions.isEmpty then o4
                  else setKey o4 "permissions" (.jobj [("collection", .jobj σ.permissions)])
        let o6 := if σ.fieldPermissions.isEmpty then o5
                  else
                    let pm : List (String × JVal) :=
                      match lookupKey o5 "permissions" with
                      | some (.jobj pm) => pm
                      | _ => []
                    setKey o5 "permissions" (.jobj (setKey pm "field" (.jarr σ.fieldPermissions)))
        match setObjAt σ.root fr.path o6 with
        | none => none
        | some root' =>
          some { (resetAccums σ) with
                 root := root',
                 stack := restStack,
                 cur := match restStack with | fr2 :: _ => fr2.path | [] => fr.path }
  else if jsStartsWith line "@if" then
    match handleIfExpression line with
    | none => none
    | some rule => some { σ with rules := σ.rules ++ [rule] }
  else if jsStartsWith line "@breadcrumb" then
    match handleBreadcrumbExpression line with
    | none => none
    | some rule => some { σ with breadcrumbRules := σ.breadcrumbRules ++ [rule] }
  else if jsStartsWith line "@sort" then
    match handleSortExpression line with
    | none => none
    | some rule => some { σ with sortRules := σ.sortRules ++ [rule] }
  else if jsStartsWith line "@can" then
    some { σ with permissions := handlePermExpression line }
  else if containsSub "array(".data line.data then
    match (jsSplitChar ':' line).map jsTrim with
    | field :: type :: _ =>
      match findArrayType line.data with
      | some itemType =>
        match handleAttributes (eaScan type.data) field type
            { schema := [("type", .jstr "array"), ("items", .jobj [("type", .jstr itemType)])],
              ctx := mkCtx includeUI σ, perms := σ.fieldPermissions } with
        | none => none
        | some st' => commitField σ field st'
      | none =>
        match findArrayRefType line.data with
        | some _ =>
          match findLitLazyParen "@ref(".data type.data with
          | none => none
          | some refName =>
            match handleAttributes
                ((eaScan type.data).filter (fun a => !(containsSub refName.data a.data)))
                field type
                { schema := [("type", .jstr "array"),
                             ("items", .jobj [("$ref", .jstr ("#/$defs/" ++ jsToLower refName))])],
                  ctx := mkCtx includeUI σ, perms := σ.fieldPermissions } with
            | none => none
            | some st' => commitField σ field st'
        | none => some σ
    | _ => none
  else
    match handleAttributes
        (eaScan (jsTrim ⟨jsSubstringL line.data (colonIdx line + 1) (line.data.length : Int)⟩).data)
        (jsTrim ⟨jsSubstringL line.data 0 (colonIdx line)⟩)
        (jsTrim ⟨jsSubstringL line.data (colonIdx line + 1) (line.data.length : Int)⟩)
        { schema := [("type", .jstr (jsTrim ((jsSplitChar '@'
            (jsTrim ⟨jsSubstringL line.data (colonIdx line + 1) (line.data.length : Int)⟩)).headD "")))],
          ctx := mkCtx includeUI σ, perms := σ.fieldPermissions } with
    | none => none
    | some st' => commitField σ (jsTrim ⟨jsSubstringL line.data 0 (colonIdx line)⟩) st'

/-- `dsl.split('\n').map(trim).filter(nonempty)`. -/
def linesOf (dsl : String) : List String :=
  ((jsSplitChar '\n' dsl).map jsTrim).filter (fun l => l ≠ "")

/-- `{ $defs: {} }` and the empty accumulators. -/
def initPState : PState :=
  { root := [("$defs", .jobj [])], rules := [], sortRules := [], breadcrumbRules := [],
    permissions := [], fieldPermissions := [], stack := [], cur := .root }

def runLines (includeUI : Bool) (σ : PState) (ls : List String) : Option PState :=
  ls.foldlM (lineStep includeUI) σ

/-- `parseDSL(dsl, includeUI = false)` from the source; `none` is a thrown
error aborting compilation. -/
def parseDSL (dsl : String) (includeUI : Bool := false) : Option JVal :=
  (runLines includeUI initPState (linesOf dsl)).map (fun σ => .jobj σ.root)

/-- Member access on a document that should be an object. -/
def docKey (v : JVal) (k : String) : Option JVal :=
  match v with
  | .jobj o => lookupKey o k
  | _ => none

def objKeysNodup (o : List (String × JVal)) : Prop := (o.map Prod.fst).Nodup

/-- A line the dispatcher sends to the array-or-field branches. -/
def isBlockBodyLine (l : String) : Bool :=
  !jsStartsWith l "def " && !jsStartsWith l "model " && !jsStartsWith l "\x7d" &&
  !jsStartsWith l "@if" && !jsStartsWith l "@breadcrumb" && !jsStartsWith l "@sort" &&
  !jsStartsWith l "@can"

/-- The branch chain sends an attribute to the `@required` push exactly when
it survives the `@can`/`@enum`/`@ref` prefixes and starts with `@required`. -/
def attrIsRequired (a : String) : Bool :=
  !jsStartsWith a "@can" && !jsStartsWith a "@enum" && !jsStartsWith a "@ref" &&
  jsStartsWith a "@required"

/-- The property name a body line writes, per the dispatcher's two branches. -/
def lineField (l : String) : String :=
  if containsSub "array(".data l.data then
    ((jsSplitChar ':' l).map jsTrim).headD ""
  else
    jsTrim ⟨jsSubstringL l.data 0 (colonIdx l)⟩

/-- The attribute tokens a body line hands to `handleAttributes` (empty when
the ignored `array(` shape matches neither pattern). -/
def lineAttrs (l : String) : List String :=
  if containsSub "array(".data l.data then
    match (jsSplitChar ':' l).map jsTrim with
    | _ :: type :: _ =>
      match findArrayType l.data with
      | some _ => extractAttributes type
      | none =>
        match findArrayRefType l.data with
        | some _ =>
          match findLitLazyParen "@ref(".data type.data with
          | some refName =>
            (extractAttributes type).filter (fun a => !(containsSub refName.data a.data))
          | none => []
        | none => []
    | _ => []
  else
    extractAttributes (jsTrim ⟨jsSubstringL l.data (colonIdx l + 1) (l.data.length : Int)⟩)

/-- How many times a body line pushes its field name onto `requiredFields`. -/
def lineReqCount (l : String) : Nat := (lineAttrs l).countP attrIsRequired

/-- The concatenated required-name pushes of a run of body lines. -/
def reqOfLines : List String → List String
  | [] => []
  | l :: ls => List.replicate (lineReqCount l) (lineField l) ++ reqOfLines ls

/-- A derivation of one compilation run: starting from a state, each line in
turn either steps the dispatcher or aborts the whole run (a thrown error).
A priori several results could be derivable for the same input; determinism
below says they cannot. -/
inductive RunRel (ui : Bool) : PState → List String → Option PState → Prop where
  | nil (σ : PState) : RunRel ui σ [] (some σ)
  | consOk (σ σ' : PState) (l : String) (ls : List String) (r : Option PState) :
      lineStep ui σ l = some σ' → RunRel ui σ' ls r → RunRel ui σ (l :: ls) r
  | consFail (σ : PState) (l : String) (ls : List String) :
      lineStep ui σ l = none → RunRel ui σ (l :: ls) none

/-- A full `parseDSL` call as a relation between the input and the compiled
document: split/trim/filter the lines, derive a run from the fresh initial
state, and wrap the final root object. -/
def ParseRel (dsl : String) (ui : Bool) (r : Option JVal) : Prop :=
  ∃ res : Option PState, RunRel ui initPState (linesOf dsl) res ∧
    r = res.map (fun σ => .jobj σ.root)

/-! ## Shared lemmas -/

theorem eaBal_snd_length_le (d : Nat) (cs : List Char) :
    (eaBal d cs).2.length ≤ cs.length := by
  induction cs generalizing d with
  | nil => simp [eaBal]
  | cons c cs ih =>
    simp only [eaBal]
    split
    · simp
    · simp only [List.length_cons]
      exact Nat.le_succ_of_le (ih _)

theorem eaTok_snd_length_le (rest : List Char) : (eaTok rest).2.length ≤ rest.length := by
  unfold eaTok
  have hdrop : (rest.drop (rest.takeWhile isWordChar).length).length ≤ rest.length := by
    simp [List.length_drop]
  split
  next r2 heq =>
    have hb := eaBal_snd_length_le 1 r2
    rw [heq] at hdrop
    simp only [List.length_cons] at hdrop
    simp only []
    omega
  next => exact hdrop

theorem eaScanF_fuel (fuel fuel' : Nat) (cs : List Char)
    (h : cs.length ≤ fuel) (h' : cs.length ≤ fuel') :
    eaScanF fuel cs = eaScanF fuel' cs := by
  induction fuel generalizing cs fuel' with
  | zero =>
    have : cs = [] := List.length_eq_zero.mp (Nat.le_zero.mp h)
    subst this
    cases fuel' <;> rfl
  | succ fuel ih =>
    match cs with
    | [] => cases fuel' <;> rfl
    | c :: rest =>
      match fuel', h' with
      | fuel' + 1, h' =>
        simp only [eaScanF]
        have hrest : rest.length ≤ fuel := by
          simp only [List.length_cons] at h; omega
        have hrest' : rest.length ≤ fuel' := by
          simp only [List.length_cons] at h'; omega
        have htok : (eaTok rest).2.length ≤ fuel := le_trans (eaTok_snd_length_le rest) hrest
        have htok' : (eaTok rest).2.length ≤ fuel' := le_trans (eaTok_snd_length_le rest) hrest'
        split
        · rw [ih _ _ htok htok']
        · exact ih _ _ hrest hrest'

theorem permAfterKey_length_lt {x : List Char} {v : String} {rest : List Char}
    (h : permAfterKey x = some (v, rest)) : rest.length < x.length := by
  unfold permAfterKey at h
  split at h
  next r =>
    have hws : (r.dropWhile isJsWs).length ≤ r.length :=
      (List.dropWhile_sublist _).length_le
    split at h
    next r2 heq =>
      have hdrop : (r2.drop (r2.takeWhile (fun c => c != '"')).length).length ≤ r2.length := by
        simp [List.length_drop]
      split at h
      next rest' heq2 =>
        simp only [Option.some.injEq, Prod.mk.injEq] at h
        rw [heq] at hws
        rw [heq2] at hdrop
        simp only [List.length_cons] at hws hdrop
        rw [← h.2]
        simp only [List.length_cons]
        omega
      next => exact absurd h (by simp)
    next => exact absurd h (by simp)
  next => exact absurd h (by simp)

theorem permNext_length_lt :
    ∀ {l : List Char} {kv : String × String} {rest : List Char},
      permNext l = some (kv, rest) → rest.length < l.length := by
  intro l
  induction l with
  | nil => intro kv rest h; simp [permNext] at h
  | cons c cs ih =>
    intro kv rest h
    rw [permNext] at h
    split at h
    · split at h
      next v rest' hm =>
        simp only [Option.some.injEq, Prod.mk.injEq] at h
        have h1 := permAfterKey_length_lt hm
        have h2 : ((c :: cs).drop (c :: cs.takeWhile isWordChar).length).length ≤ cs.length := by
          simp only [List.length_drop, List.length_cons]
          omega
        rw [← h.2]
        simp only [List.length_cons]
        omega
      next => exact Nat.lt_succ_of_lt (ih h)
    · exact Nat.lt_succ_of_lt (ih h)

theorem permScanF_fuel (fuel fuel' : Nat) (l : List Char)
    (h : l.length ≤ fuel) (h' : l.length ≤ fuel') :
    permScanF fuel l = permScanF fuel' l := by
  induction fuel generalizing l fuel' with
  | zero =>
    have : l = [] := List.length_eq_zero.mp (Nat.le_zero.mp h)
    subst this
    cases fuel' with
    | zero => rfl
    | succ fuel' => simp [permScanF, permNext]
  | succ fuel ih =>
    match fuel', h' with
    | 0, h' =>
      have : l = [] := List.length_eq_zero.mp (Nat.le_zero.mp h')
      subst this
      simp [permScanF, permNext]
    | fuel' + 1, h' =>
      simp only [permScanF]
      match hm : permNext l with
      | some (kv, rest) =>
        have hlt := permNext_length_lt hm
        exact congrArg _ (ih fuel' rest (by omega) (by omega))
      | none => rfl

theorem lookupKey_setKey_self (o : List (String × JVal)) (k : String) (v : JVal) :
    lookupKey (setKey o k v) k = some v := by
  induction o with
  | nil => simp [setKey, lookupKey]
  | cons kv rest ih =>
    obtain ⟨ek, ev⟩ := kv
    by_cases hk : ek = k
    · simp [setKey, lookupKey, hk]
    · simp [setKey, lookupKey, hk, ih]

theorem lookupKey_setKey_ne (o : List (String × JVal)) (k k' : String) (v : JVal)
    (h : k' ≠ k) : lookupKey (setKey o k v) k' = lookupKey o k' := by
  have hne : k ≠ k' := fun hh => h hh.symm
  induction o with
  | nil => simp [setKey, lookupKey, hne]
  | cons kv rest ih =>
    obtain ⟨ek, ev⟩ := kv
    by_cases hk : ek = k
    · subst hk
      simp [setKey, lookupKey, hne]
    · by_cases hk' : ek = k'
      · simp [setKey, lookupKey, hk, hk', h]
      · simp [setKey, lookupKey, hk, hk', ih]

theorem lookupKey_deleteKey_ne (o : List (String × JVal)) (k k' : String)
    (h : k' ≠ k) : lookupKey (deleteKey o k) k' = lookupKey o k' := by
  have hne : k ≠ k' := fun hh => h hh.symm
  induction o with
  | nil => simp [deleteKey, lookupKey]
  | cons kv rest ih =>
    obtain ⟨ek, ev⟩ := kv
    by_cases hk : ek = k
    · subst hk
      simp [deleteKey, lookupKey, hne]
    · by_cases hk' : ek = k'
      · simp [deleteKey, lookupKey, hk, hk', h]
      · simp [deleteKey, lookupKey, hk, hk', ih]

theorem sdata_append (s t : String) : (s ++ t).data = s.data ++ t.data := rfl

theorem mk_data (s : String) : (⟨s.data⟩ : String) = s := rfl

theorem isPrefixOf_append_left {α : Type} [BEq α] (p s t : List α)
    (h : p.length ≤ s.length) : p.isPrefixOf (s ++ t) = p.isPrefixOf s := by
  induction p generalizing s with
  | nil => simp [List.isPrefixOf]
  | cons a p ih =>
    match s with
    | [] => simp at h
    | b :: s =>
      simp only [List.cons_append, List.isPrefixOf]
      simp only [List.length_cons] at h
      exact congrArg (fun x => a == b && x) (ih s (by omega))

/-- `startsWith` ignores a right extension that cannot be reached. -/
theorem jsStartsWith_append_left (s t p : String) (h : p.length ≤ s.length) :
    jsStartsWith (s ++ t) p = jsStartsWith s p := by
  unfold jsStartsWith
  rw [sdata_append]
  exact isPrefixOf_append_left _ _ _ h

theorem string_append_assoc (a b c : String) : a ++ b ++ c = a ++ (b ++ c) := by
  apply congrArg String.mk
  show (a ++ b).data ++ c.data = a.data ++ (b ++ c).data
  rw [sdata_append, sdata_append, List.append_assoc]

/-! ## Claim theorems -/

/-- **C1.**  Compiling the line
`@if(has_prior_coverage: @const(true), @required(prior_coverage_company))`
inside a model block appends to that block's `allOf` exactly the rule
`{if: {properties: {has_prior_coverage: {const: true}}},
  then: {required: ["prior_coverage_company"]}}`: the `if` branch carries
only the `properties` key (no `required`), and the condition value `true` is
coerced to a boolean. -/
theorem C1_if_const_rule_in_allOf :
    (parseDSL "model X \x7b\n@if(has_prior_coverage: @const(true), @required(prior_coverage_company))\n\x7d").map
        (docKey · "allOf") =
      some (some (.jarr
        [.jobj
          [("if", .jobj [("properties",
              .jobj [("has_prior_coverage", .jobj [("const", .jbool true)])])]),
           ("then", .jobj [("required", .jarr [.jstr "prior_coverage_company"])])]])) := by
  rfl

/-- **C3** (the code, evaluated at the failing input).  `handlePermExpression`
never throws on an expression with no `key: "value"` pair: `matchAll` returns
an iterator, which is never falsy, so the `if (!matches) throw` guard is dead
code and the function returns an empty permission map — both in general
(first conjunct) and at the concrete failing inputs. -/
theorem C3_handlePermExpression_returns_empty :
    (∀ s : String, permNext s.data = none → handlePermExpression s = []) ∧
    handlePermExpression "@can()" = [] ∧ handlePermExpression "hello" = [] := by
  refine ⟨?_, rfl, rfl⟩
  intro s h
  unfold handlePermExpression permScan
  cases hl : s.data.length with
  | zero => rfl
  | succ n => simp [permScanF, h]

theorem isPrefixOf_self_append (l t : List Char) : l.isPrefixOf (l ++ t) = true := by
  induction l with
  | nil => simp [List.isPrefixOf]
  | cons c cs ih => simp [List.isPrefixOf, ih]

theorem eaBal_no_close (d : Nat) (cs : List Char) (hd : 1 ≤ d)
    (h : ∀ c ∈ cs, c ≠ ')') : eaBal d cs = (cs, []) := by
  induction cs generalizing d with
  | nil => simp [eaBal]
  | cons c cs ih =>
    have hc : c ≠ ')' := h c (by simp)
    have hdep : 1 ≤ eaDepth d c := by
      unfold eaDepth
      by_cases hp : c = '('
      · rw [if_pos hp]; omega
      · rw [if_neg hp, if_neg hc]; omega
    simp only [eaBal]
    rw [if_neg (by omega)]
    rw [ih (eaDepth d c) hdep (fun x hm => h x (by simp [hm]))]

theorem eaScanF_no_at (fuel : Nat) (cs : List Char) (h : ∀ c ∈ cs, c ≠ '@') :
    eaScanF fuel cs = [] := by
  induction cs generalizing fuel with
  | nil => cases fuel <;> rfl
  | cons c cs ih =>
    cases fuel with
    | zero => rfl
    | succ fuel =>
      have hc : c ≠ '@' := h c (by simp)
      simp only [eaScanF, if_neg hc]
      exact ih fuel (fun x hm => h x (by simp [hm]))

theorem eaScanF_nil (fuel : Nat) : eaScanF fuel [] = [] := by
  cases fuel <;> rfl

theorem eaScanF_cons_at (fuel : Nat) (rest : List Char) :
    eaScanF (fuel + 1) ('@' :: rest) =
      (⟨'@' :: (eaTok rest).1⟩ : String) :: eaScanF fuel (eaTok rest).2 := by
  simp [eaScanF]

/-- **C10.**  `extractAttributes` is total on every input (the embedding is a
total function whose step budget provably suffices, `eaScanF_fuel`): a string
with no `@` yields the empty list, and an `@name(` whose parenthesis is never
closed yields a single token extending to the end of the string. -/
theorem C10_extractAttributes_total :
    (∀ s : String, (∀ c ∈ s.data, c ≠ '@') → extractAttributes s = []) ∧
    (∀ w r : String, (∀ c ∈ w.data, isWordChar c = true) → (∀ c ∈ r.data, c ≠ ')') →
      extractAttributes ("@" ++ w ++ "(" ++ r) = ["@" ++ w ++ "(" ++ r]) := by
  constructor
  · intro s h
    exact eaScanF_no_at _ _ h
  · intro w r hw hr
    have hdata : ("@" ++ w ++ "(" ++ r).data = '@' :: (w.data ++ '(' :: r.data) := by
      simp [sdata_append]
    have htok : eaTok (w.data ++ '(' :: r.data) = (w.data ++ '(' :: r.data, []) := by
      have ht : (w.data ++ '(' :: r.data).takeWhile isWordChar = w.data := by
        rw [List.takeWhile_append_of_pos hw]
        simp [List.takeWhile, isWordChar]
      unfold eaTok
      rw [ht, List.drop_left]
      simp only []
      rw [eaBal_no_close 1 r.data (le_refl 1) hr]
    unfold extractAttributes eaScan
    rw [hdata]
    rw [List.length_cons, eaScanF_cons_at, htok]
    rw [eaScanF_nil]
    have : ('@' :: (w.data ++ '(' :: r.data) : List Char) = ("@" ++ w ++ "(" ++ r).data :=
      hdata.symm
    rw [this, mk_data]

/-- The topmost position already matches: `lit(` then the lazy group `f`
(free of `)` and line terminators) then `)`. -/
theorem findLitLazyParen_here (lit : List Char) (f : String) (rest : List Char)
    (hlit : lit ≠ []) (hf : ∀ c ∈ f.data, (!(c = ')' || isRegexNl c)) = true) :
    findLitLazyParen lit (lit ++ (f.data ++ ')' :: rest)) = some f := by
  obtain ⟨c, lit', rfl⟩ : ∃ c lit', lit = c :: lit' := by
    cases lit with
    | nil => simp at hlit
    | cons c l => exact ⟨c, l, rfl⟩
  have hshape : (c :: lit') ++ (f.data ++ ')' :: rest) = c :: (lit' ++ (f.data ++ ')' :: rest)) := by
    simp
  rw [hshape]
  simp only [findLitLazyParen]
  rw [show (c :: lit').isPrefixOf (c :: (lit' ++ (f.data ++ ')' :: rest))) = true from by
    rw [← hshape]; exact isPrefixOf_self_append _ _]
  simp only [if_pos rfl]
  rw [← hshape, List.drop_left]
  rw [List.takeWhile_append_of_pos hf]
  have : (')' :: rest).takeWhile (fun c => !(c = ')' || isRegexNl c)) = [] := by
    simp [List.takeWhile]
  rw [this, List.append_nil, List.drop_left]
  simp [mk_data]

theorem splitCharAux_noSep (sep : Char) (l : List Char) (acc : List Char)
    (h : ∀ c ∈ l, c ≠ sep) : splitCharAux sep l acc = [⟨acc.reverse ++ l⟩] := by
  induction l generalizing acc with
  | nil => simp [splitCharAux]
  | cons c cs ih =>
    have hc : c ≠ sep := h c (by simp)
    simp only [splitCharAux, if_neg hc]
    rw [ih (c :: acc) (fun x hm => h x (by simp [hm]))]
    congr 1
    apply congrArg String.mk
    simp

/-- **C9.**  For every block-scope `@sort(args)` line the compiled rule is
`{name, dir}` taken verbatim from the comma-split of `args`, and when the
split has no second slot the direction defaults to `"asc"`. -/
theorem C9_sort_default_direction (args : String)
    (h : ∀ c ∈ args.data, (!(c = ')' || isRegexNl c)) = true) :
    (handleSortExpression ("@sort(" ++ args ++ ")") =
      some (.jobj [("name", .jstr (destr2 (jsSplitChar ',' args) "" "asc").1),
                   ("dir", .jstr (destr2 (jsSplitChar ',' args) "" "asc").2)])) ∧
    ((∀ c ∈ args.data, c ≠ ',') → destr2 (jsSplitChar ',' args) "" "asc" = (args, "asc")) := by
  constructor
  · have hdata : ("@sort(" ++ args ++ ")").data =
        "@sort(".data ++ (args.data ++ ')' :: []) := by
      simp [sdata_append]
    unfold handleSortExpression
    rw [hdata, findLitLazyParen_here "@sort(".data args [] (by simp) h]
    rfl
  · intro hcomma
    unfold jsSplitChar
    rw [splitCharAux_noSep ',' args.data [] hcomma]
    simp [destr2]

/-- **C9 witness.** -/
theorem C9_sort_default_direction_witness :
    handleSortExpression "@sort(last_name)" =
      some (.jobj [("name", .jstr "last_name"), ("dir", .jstr "asc")]) := by
  have h := C9_sort_default_direction "last_name" (by decide)
  have h2 := h.2 (by decide)
  have h1 := h.1
  rw [h2] at h1
  exact h1

/-- **C10 witness.** -/
theorem C10_extractAttributes_total_witness :
    extractAttributes "hello" = [] ∧ extractAttributes "@name(xyz" = ["@name(xyz"] := by
  constructor
  · exact C10_extractAttributes_total.1 "hello" (by decide)
  · exact C10_extractAttributes_total.2 "name" "xyz" (by decide) (by decide)

theorem findLitLazyParen_skip_noparen (pre : List Char) (tail : List Char)
    (h : ∀ c ∈ pre, c ≠ '(') :
    findLitLazyParen ['('] (pre ++ tail) = findLitLazyParen ['('] tail := by
  induction pre with
  | nil => rfl
  | cons c cs ih =>
    have hc : c ≠ '(' := h c (by simp)
    have hbeq : ('(' == c) = false := beq_eq_false_iff_ne.mpr (Ne.symm hc)
    have hpre : (['('] : List Char).isPrefixOf (c :: (cs ++ tail)) = false := by
      show (('(' == c) && List.isPrefixOf [] (cs ++ tail)) = false
      rw [hbeq]
      rfl
    simp only [List.cons_append, findLitLazyParen, List.append_eq]
    rw [hpre]
    simp only [Bool.false_eq_true, if_false]
    exact ih (fun x hm => h x (by simp [hm]))

/-- **C4.**  The `@default(v)` coercion ladder: the literal `""` gives the
empty string; `true`/`false` give booleans; a numeric-looking value on a
field whose declared type is `number`/`integer` gives `parseFloat`; anything
else — including a numeric-looking default on a string-typed field — stays a
string with its edge quotes stripped. -/
theorem C4_default_coercion (v field type : String) (st : AttrOut)
    (hv : ∀ c ∈ v.data, (!(c = ')' || isRegexNl c)) = true) :
    (attrStep field type st ("@default(" ++ v ++ ")") =
      some { st with
             schema := setKey st.schema "default"
                         (if v = "\"\"" then .jstr ""
                          else if v = "true" ∨ v = "false" then .jbool (v = "true")
                          else if !jsIsNaN v ∧ isNumericType st.schema then jsParseFloat v
                          else .jstr (stripEdgeQuotes v)) }) ∧
    (jsIsNaN v = false → isNumericType st.schema = false →
      v ≠ "\"\"" → v ≠ "true" → v ≠ "false" →
      attrStep field type st ("@default(" ++ v ++ ")") =
        some { st with schema := setKey st.schema "default" (.jstr (stripEdgeQuotes v)) }) := by
  have hdata : ("@default(" ++ v ++ ")").data =
      "@default".data ++ ('(' :: (v.data ++ ')' :: [])) := by
    simp [sdata_append]
  have hfind : findLitLazyParen "(".data ("@default(" ++ v ++ ")").data = some v := by
    rw [hdata]
    rw [show ("(".data : List Char) = ['('] from rfl]
    rw [findLitLazyParen_skip_noparen _ _ (by decide)]
    have := findLitLazyParen_here ['('] v [] (by simp) hv
    simpa using this
  have hmain : attrStep field type st ("@default(" ++ v ++ ")") =
      some { st with
             schema := setKey st.schema "default"
                         (if v = "\"\"" then .jstr ""
                          else if v = "true" ∨ v = "false" then .jbool (v = "true")
                          else if !jsIsNaN v ∧ isNumericType st.schema then jsParseFloat v
                          else .jstr (stripEdgeQuotes v)) } := by
    unfold attrStep
    rw [hfind]
    simp only [jsStartsWith, hdata, List.isPrefixOf]
    simp
  refine ⟨hmain, ?_⟩
  intro hnan hnum hq ht hf
  rw [hmain]
  rw [if_neg hq, if_neg (by simp [ht, hf]), if_neg (by simp [hnum])]

/-- **C4 witness.**  `salary: number @default(30)` coerces to the number 30,
while `note: string @default(30)` keeps the string `"30"`. -/
theorem C4_default_coercion_witness :
    attrStep "note" "string @default(30)"
        { schema := [("type", .jstr "string")], ctx := none, perms := [] } "@default(30)" =
      some { schema := [("type", .jstr "string"), ("default", .jstr "30")],
             ctx := none, perms := [] } ∧
    attrStep "salary" "number @default(30)"
        { schema := [("type", .jstr "number")], ctx := none, perms := [] } "@default(30)" =
      some { schema := [("type", .jstr "number"), ("default", .jnum 30)],
             ctx := none, perms := [] } := by
  constructor
  · exact (C4_default_coercion "30" "note" "string @default(30)"
      { schema := [("type", .jstr "string")], ctx := none, perms := [] } (by decide)).2
      (by decide) (by decide) (by decide) (by decide) (by decide)
  · exact (C4_default_coercion "30" "salary" "number @default(30)"
      { schema := [("type", .jstr "number")], ctx := none, perms := [] } (by decide)).1

/-! ### Key-set lemmas (JS objects have no duplicate keys) -/

theorem lookupKey_eq_none_of_not_mem (o : List (String × JVal)) (k : String)
    (h : k ∉ o.map Prod.fst) : lookupKey o k = none := by
  induction o with
  | nil => rfl
  | cons kv rest ih =>
    simp only [List.map_cons, List.mem_cons] at h
    push_neg at h
    simp only [lookupKey]
    rw [if_neg (fun hh => h.1 hh.symm)]
    exact ih h.2

theorem setKey_map_fst (o : List (String × JVal)) (k : String) (v : JVal) :
    (setKey o k v).map Prod.fst =
      if k ∈ o.map Prod.fst then o.map Prod.fst else o.map Prod.fst ++ [k] := by
  induction o with
  | nil => simp [setKey]
  | cons kv rest ih =>
    obtain ⟨ek, ev⟩ := kv
    by_cases hk : ek = k
    · subst hk
      simp [setKey]
    · have hne : ¬ k = ek := fun hh => hk hh.symm
      simp only [setKey, if_neg hk, List.map_cons, ih]
      by_cases hmem : k ∈ rest.map Prod.fst
      · simp [List.mem_cons, hmem, hne]
      · simp [List.mem_cons, hmem, hne]

theorem objKeysNodup_setKey (o : List (String × JVal)) (k : String) (v : JVal)
    (h : objKeysNodup o) : objKeysNodup (setKey o k v) := by
  unfold objKeysNodup at *
  rw [setKey_map_fst]
  split
  · exact h
  · next hmem =>
    rw [List.nodup_append]
    refine ⟨h, List.nodup_singleton _, ?_⟩
    intro x hx hx'
    simp only [List.mem_singleton] at hx'
    subst hx'
    exact hmem hx

theorem deleteKey_map_fst_sublist (o : List (String × JVal)) (k : String) :
    ((deleteKey o k).map Prod.fst).Sublist (o.map Prod.fst) := by
  induction o with
  | nil => simp [deleteKey]
  | cons kv rest ih =>
    obtain ⟨ek, ev⟩ := kv
    by_cases hk : ek = k
    · simp only [deleteKey, if_pos hk, List.map_cons]
      exact (List.sublist_cons_self _ _)
    · simp only [deleteKey, if_neg hk, List.map_cons]
      exact ih.cons₂ _

theorem objKeysNodup_deleteKey (o : List (String × JVal)) (k : String)
    (h : objKeysNodup o) : objKeysNodup (deleteKey o k) :=
  h.sublist (deleteKey_map_fst_sublist o k)

theorem lookupKey_deleteKey_self (o : List (String × JVal)) (k : String)
    (h : objKeysNodup o) : lookupKey (deleteKey o k) k = none := by
  induction o with
  | nil => rfl
  | cons kv rest ih =>
    obtain ⟨ek, ev⟩ := kv
    unfold objKeysNodup at h
    simp only [List.map_cons, List.nodup_cons] at h
    by_cases hk : ek = k
    · subst hk
      simp only [deleteKey, if_pos rfl]
      exact lookupKey_eq_none_of_not_mem _ _ h.1
    · simp only [deleteKey, if_neg hk, lookupKey]
      exact ih h.2

/-! ### What a single non-`@format` attribute can do to the schema fragment -/

theorem numKey_shape (st : AttrOut) (k a : String) (st' : AttrOut)
    (h : numKey st k a = some st') :
    ∃ w, st' = { st with schema := setKey st.schema k w } := by
  unfold numKey at h
  split at h
  · exact absurd h (by simp)
  · cases h
    exact ⟨_, rfl⟩

/-- A non-`@format` attribute never touches the `type`, `format` or `anyOf`
members of the field fragment, and keeps its keys duplicate-free. -/
theorem attrStep_not_format (field type a : String) (st st' : AttrOut)
    (hfmt : jsStartsWith a "@format" = false)
    (h : attrStep field type st a = some st') :
    lookupKey st'.schema "type" = lookupKey st.schema "type" ∧
    lookupKey st'.schema "format" = lookupKey st.schema "format" ∧
    lookupKey st'.schema "anyOf" = lookupKey st.schema "anyOf" ∧
    (objKeysNodup st.schema → objKeysNodup st'.schema) := by
  have setCase : ∀ (k : String) (w : JVal),
      k ≠ "type" → k ≠ "format" → k ≠ "anyOf" →
      st' = { st with schema := setKey st.schema k w } →
      lookupKey st'.schema "type" = lookupKey st.schema "type" ∧
      lookupKey st'.schema "format" = lookupKey st.schema "format" ∧
      lookupKey st'.schema "anyOf" = lookupKey st.schema "anyOf" ∧
      (objKeysNodup st.schema → objKeysNodup st'.schema) := by
    intro k w h1 h2 h3 he
    subst he
    refine ⟨lookupKey_setKey_ne _ _ _ _ (fun hh => h1 hh.symm),
            lookupKey_setKey_ne _ _ _ _ (fun hh => h2 hh.symm),
            lookupKey_setKey_ne _ _ _ _ (fun hh => h3 hh.symm),
            fun hn => objKeysNodup_setKey _ _ _ hn⟩
  have sameCase : st'.schema = st.schema →
      lookupKey st'.schema "type" = lookupKey st.schema "type" ∧
      lookupKey st'.schema "format" = lookupKey st.schema "format" ∧
      lookupKey st'.schema "anyOf" = lookupKey st.schema "anyOf" ∧
      (objKeysNodup st.schema → objKeysNodup st'.schema) := by
    intro he
    rw [he]
    exact ⟨rfl, rfl, rfl, id⟩
  unfold attrStep at h
  by_cases hc0 : jsStartsWith a "@can" = true
  · rw [if_pos hc0] at h
    cases h
    exact sameCase rfl
  · rw [if_neg hc0] at h
    by_cases hc1 : jsStartsWith a "@enum" = true
    · rw [if_pos hc1] at h
      split at h
      · exact absurd h (by simp)
      · cases h
        exact setCase "enum" _ (by decide) (by decide) (by decide) rfl
    · rw [if_neg hc1] at h
      by_cases hc2 : jsStartsWith a "@ref" = true
      · rw [if_pos hc2] at h
        split at h
        · exact absurd h (by simp)
        · cases h
          exact setCase "$ref" _ (by decide) (by decide) (by decide) rfl
      · rw [if_neg hc2] at h
        by_cases hc3 : jsStartsWith a "@required" = true
        · rw [if_pos hc3] at h
          split at h
          · exact absurd h (by simp)
          · cases h
            exact sameCase rfl
        · rw [if_neg hc3] at h
          by_cases hc4 : jsStartsWith a "@ui" = true
          · rw [if_pos hc4] at h
            split at h
            · exact absurd h (by simp)
            · split at h
              · cases h
                exact sameCase rfl
              · split at h
                · exact absurd h (by simp)
                · cases h
                  exact sameCase rfl
          · rw [if_neg hc4] at h
            by_cases hc5 : jsStartsWith a "@minItems" = true
            · rw [if_pos hc5] at h
              obtain ⟨w, hw⟩ := numKey_shape _ _ _ _ h
              exact setCase "minItems" w (by decide) (by decide) (by decide) hw
            · rw [if_neg hc5] at h
              by_cases hc6 : jsStartsWith a "@maxItems" = true
              · rw [if_pos hc6] at h
                obtain ⟨w, hw⟩ := numKey_shape _ _ _ _ h
                exact setCase "maxItems" w (by decide) (by decide) (by decide) hw
              · rw [if_neg hc6] at h
                by_cases hc7 : jsStartsWith a "@uniqueItems" = true
                · rw [if_pos hc7] at h
                  cases h
                  exact setCase "uniqueItems" _ (by decide) (by decide) (by decide) rfl
                · rw [if_neg hc7] at h
                  by_cases hc8 : jsStartsWith a "@minLength" = true
                  · rw [if_pos hc8] at h
                    obtain ⟨w, hw⟩ := numKey_shape _ _ _ _ h
                    exact setCase "minLength" w (by decide) (by decide) (by decide) hw
                  · rw [if_neg hc8] at h
                    by_cases hc9 : jsStartsWith a "@maxLength" = true
                    · rw [if_pos hc9] at h
                      obtain ⟨w, hw⟩ := numKey_shape _ _ _ _ h
                      exact setCase "maxLength" w (by decide) (by decide) (by decide) hw
                    · rw [if_neg hc9] at h
                      by_cases hc10 : jsStartsWith a "@exclusiveMinimum" = true
                      · rw [if_pos hc10] at h
                        obtain ⟨w, hw⟩ := numKey_shape _ _ _ _ h
                        exact setCase "exclusiveMinimum" w (by decide) (by decide) (by decide) hw
                      · rw [if_neg hc10] at h
                        by_cases hc11 : jsStartsWith a "@exclusiveMaximum" = true
                        · rw [if_pos hc11] at h
                          obtain ⟨w, hw⟩ := numKey_shape _ _ _ _ h
                          exact setCase "exclusiveMaximum" w (by decide) (by decide) (by decide) hw
                        · rw [if_neg hc11] at h
                          by_cases hc12 : jsStartsWith a "@minimum" = true
                          · rw [if_pos hc12] at h
                            obtain ⟨w, hw⟩ := numKey_shape _ _ _ _ h
                            exact setCase "minimum" w (by decide) (by decide) (by decide) hw
                          · rw [if_neg hc12] at h
                            by_cases hc13 : jsStartsWith a "@maximum" = true
                            · rw [if_pos hc13] at h
                              obtain ⟨w, hw⟩ := numKey_shape _ _ _ _ h
                              exact setCase "maximum" w (by decide) (by decide) (by decide) hw
                            · rw [if_neg hc13] at h
                              by_cases hc14 : jsStartsWith a "@multipleOf" = true
                              · rw [if_pos hc14] at h
                                obtain ⟨w, hw⟩ := numKey_shape _ _ _ _ h
                                exact setCase "multipleOf" w (by decide) (by decide) (by decide) hw
                              · rw [if_neg hc14] at h
                                rw [if_neg (by simp [hfmt])] at h
                                by_cases hc16 : jsStartsWith a "@pattern" = true
                                · rw [if_pos hc16] at h
                                  split at h
                                  · cases h
                                    exact sameCase rfl
                                  · cases h
                                    exact setCase "pattern" _ (by decide) (by decide) (by decide) rfl
                                · rw [if_neg hc16] at h
                                  by_cases hc17 : jsStartsWith a "@default" = true
                                  · rw [if_pos hc17] at h
                                    split at h
                                    · exact absurd h (by simp)
                                    · cases h
                                      exact setCase "default" _ (by decide) (by decide) (by decide) rfl
                                  · rw [if_neg hc17] at h
                                    cases h
                                    exact sameCase rfl

theorem foldlM_append_option {α β : Type} (f : β → α → Option β) (l1 l2 : List α) (b : β) :
    (l1 ++ l2).foldlM f b = (l1.foldlM f b).bind (fun b' => l2.foldlM f b') := by
  induction l1 generalizing b with
  | nil => simp
  | cons a l1 ih =>
    simp only [List.cons_append, List.foldlM]
    cases f b a with
    | none => simp
    | some b1 => simp [ih]

theorem handleAttributes_not_format (attrs : List String) (field type : String)
    (st st' : AttrOut)
    (hall : ∀ a ∈ attrs, jsStartsWith a "@format" = false)
    (h : handleAttributes attrs field type st = some st') :
    lookupKey st'.schema "type" = lookupKey st.schema "type" ∧
    lookupKey st'.schema "format" = lookupKey st.schema "format" ∧
    lookupKey st'.schema "anyOf" = lookupKey st.schema "anyOf" ∧
    (objKeysNodup st.schema → objKeysNodup st'.schema) := by
  induction attrs generalizing st with
  | nil =>
    unfold handleAttributes at h
    simp only [List.foldlM, Option.pure_def, Option.some.injEq] at h
    subst h
    exact ⟨rfl, rfl, rfl, id⟩
  | cons a as ih =>
    unfold handleAttributes at h
    simp only [List.foldlM] at h
    cases hs : attrStep field type st a with
    | none => rw [hs] at h; exact absurd h (by simp)
    | some st1 =>
      rw [hs] at h
      replace h : as.foldlM (attrStep field type) st1 = some st' := h
      have h1 := attrStep_not_format field type a st st1 (hall a (by simp)) hs
      have h2 := ih st1 (fun x hm => hall x (by simp [hm])) h
      exact ⟨h2.1.trans h1.1, h2.2.1.trans h1.2.1, h2.2.2.1.trans h1.2.2.1,
             fun hn => h2.2.2.2 (h1.2.2.2 hn)⟩

/-- The `@format(f)` branch itself: `date-time` replaces `type` with the
two-armed `anyOf`; any other argument is set verbatim as `format`. -/
theorem attrStep_format (f field type : String) (st : AttrOut)
    (hf : ∀ c ∈ f.data, (!(c = ')' || isRegexNl c)) = true) :
    attrStep field type st ("@format(" ++ f ++ ")") =
      some { st with
             schema := if f = "date-time"
                         then deleteKey (setKey st.schema "anyOf" (.jarr
                                [.jobj [("type", .jstr "string"), ("format", .jstr "date-time")],
                                 .jobj [("type", .jstr "string"), ("enum", .jarr [.jstr ""])]])) "type"
                         else setKey st.schema "format" (.jstr f) } := by
  have hdata : ("@format(" ++ f ++ ")").data =
      "@format".data ++ ('(' :: (f.data ++ ')' :: [])) := by
    simp [sdata_append]
  have hfind : findLitLazyParen "(".data ("@format(" ++ f ++ ")").data = some f := by
    rw [hdata]
    rw [show ("(".data : List Char) = ['('] from rfl]
    rw [findLitLazyParen_skip_noparen _ _ (by decide)]
    have := findLitLazyParen_here ['('] f [] (by simp) hf
    simpa using this
  unfold attrStep
  rw [hfind]
  simp only [jsStartsWith, hdata, List.isPrefixOf]
  simp
  split <;> rfl

/-- **C7.**  For a field line whose attribute list carries `@format(f)` once:
`f = date-time` leaves the fragment with no `type` key and with the
`anyOf` pair `[{type: string, format: date-time}, {type: string, enum: [""]}]`;
any other `f` keeps the fragment's `type` untouched and sets `format = f`
verbatim. -/
theorem C7_format_behaviour (f field type : String) (pre suf : List String)
    (st st' : AttrOut)
    (hf : ∀ c ∈ f.data, (!(c = ')' || isRegexNl c)) = true)
    (hpre : ∀ a ∈ pre, jsStartsWith a "@format" = false)
    (hsuf : ∀ a ∈ suf, jsStartsWith a "@format" = false)
    (hnodup : objKeysNodup st.schema)
    (h : handleAttributes (pre ++ ("@format(" ++ f ++ ")") :: suf) field type st = some st') :
    (f = "date-time" →
       lookupKey st'.schema "type" = none ∧
       lookupKey st'.schema "anyOf" = some (.jarr
         [.jobj [("type", .jstr "string"), ("format", .jstr "date-time")],
          .jobj [("type", .jstr "string"), ("enum", .jarr [.jstr ""])]])) ∧
    (f ≠ "date-time" →
       lookupKey st'.schema "type" = lookupKey st.schema "type" ∧
       lookupKey st'.schema "format" = some (.jstr f)) := by
  unfold handleAttributes at h
  rw [foldlM_append_option] at h
  cases hfold1 : pre.foldlM (attrStep field type) st with
  | none => rw [hfold1] at h; exact absurd h (by simp)
  | some st1 =>
    rw [hfold1] at h
    replace h : (("@format(" ++ f ++ ")") :: suf).foldlM (attrStep field type) st1 = some st' := h
    simp only [List.foldlM] at h
    rw [attrStep_format f field type st1 hf] at h
    replace h : suf.foldlM (attrStep field type)
        { st1 with
          schema := if f = "date-time"
                      then deleteKey (setKey st1.schema "anyOf" (.jarr
                             [.jobj [("type", .jstr "string"), ("format", .jstr "date-time")],
                              .jobj [("type", .jstr "string"), ("enum", .jarr [.jstr ""])]])) "type"
                      else setKey st1.schema "format" (.jstr f) } = some st' := h
    have hpre1 := handleAttributes_not_format pre field type st st1 hpre hfold1
    have hnd1 : objKeysNodup st1.schema := hpre1.2.2.2 hnodup
    set X : JVal := .jarr
      [.jobj [("type", .jstr "string"), ("format", .jstr "date-time")],
       .jobj [("type", .jstr "string"), ("enum", .jarr [.jstr ""])]] with hX
    constructor
    · intro hdt
      subst hdt
      rw [if_pos rfl] at h
      have hsuf1 := handleAttributes_not_format suf field type _ st' hsuf h
      constructor
      · rw [hsuf1.1]
        exact lookupKey_deleteKey_self _ _ (objKeysNodup_setKey _ _ _ hnd1)
      · rw [hsuf1.2.2.1]
        rw [lookupKey_deleteKey_ne _ _ _ (by decide)]
        exact lookupKey_setKey_self _ _ _
    · intro hne
      rw [if_neg hne] at h
      have hsuf1 := handleAttributes_not_format suf field type _ st' hsuf h
      constructor
      · rw [hsuf1.1]
        rw [lookupKey_setKey_ne _ _ _ _ (by decide)]
        exact hpre1.1
      · rw [hsuf1.2.1]
        exact lookupKey_setKey_self _ _ _

/-- **C7 witness.** -/
theorem C7_format_behaviour_witness :
    lookupKey [("anyOf", JVal.jarr
        [.jobj [("type", .jstr "string"), ("format", .jstr "date-time")],
         .jobj [("type", .jstr "string"), ("enum", .jarr [.jstr ""])]])] "type" = none ∧
    lookupKey [("anyOf", JVal.jarr
        [.jobj [("type", .jstr "string"), ("format", .jstr "date-time")],
         .jobj [("type", .jstr "string"), ("enum", .jarr [.jstr ""])]])] "anyOf" =
      some (JVal.jarr
        [.jobj [("type", .jstr "string"), ("format", .jstr "date-time")],
         .jobj [("type", .jstr "string"), ("enum", .jarr [.jstr ""])]]) := by
  have h := (C7_format_behaviour "date-time" "when" "string @format(date-time)" [] []
    { schema := [("type", .jstr "string")], ctx := none, perms := [] }
    { schema := [("anyOf", JVal.jarr
        [.jobj [("type", .jstr "string"), ("format", .jstr "date-time")],
         .jobj [("type", .jstr "string"), ("enum", .jarr [.jstr ""])]])],
      ctx := none, perms := [] }
    (by decide) (by simp) (by simp) (by simp [objKeysNodup]) (by rfl)).1 rfl
  exact h

/-- **C5.**  Array field lines.  (a) The concrete scenario:
`tags: array(string) @minItems(1)` compiles to
`{type: array, items: {type: string}, minItems: 1}`.  (b) Every line the
dispatcher treats as an `array(primitiveType)` field builds the wrapper
`{type: "array", items: {type: t}}` and applies the remaining attributes to
that wrapper.  (c) Every `array(@ref(Name))` line builds
`items = {$ref: "#/$defs/<lowercase Name>"}` and excludes from generic
attribute processing every token containing `Name` — in particular the
`@ref` token itself. -/
theorem C5_array_resolver :
    ((parseDSL "model T \x7b\ntags: array(string) @minItems(1)\n\x7d").map (docKey · "properties") =
      some (some (.jobj
        [("tags", .jobj
          [("type", .jstr "array"),
           ("items", .jobj [("type", .jstr "string")]),
           ("minItems", .jnum 1)])]))) ∧
    (∀ (ui : Bool) (σ : PState) (line field type t : String),
      jsStartsWith line "def " = false → jsStartsWith line "model " = false →
      jsStartsWith line "\x7d" = false → jsStartsWith line "@if" = false →
      jsStartsWith line "@breadcrumb" = false → jsStartsWith line "@sort" = false →
      jsStartsWith line "@can" = false →
      containsSub "array(".data line.data = true →
      (jsSplitChar ':' line).map jsTrim = [field, type] →
      findArrayType line.data = some t →
      lineStep ui σ line =
        (handleAttributes (extractAttributes type) field type
           { schema := [("type", .jstr "array"), ("items", .jobj [("type", .jstr t)])],
             ctx := mkCtx ui σ, perms := σ.fieldPermissions }).bind (commitField σ field)) ∧
    (∀ (ui : Bool) (σ : PState) (line field type rt refName : String),
      jsStartsWith line "def " = false → jsStartsWith line "model " = false →
      jsStartsWith line "\x7d" = false → jsStartsWith line "@if" = false →
      jsStartsWith line "@breadcrumb" = false → jsStartsWith line "@sort" = false →
      jsStartsWith line "@can" = false →
      containsSub "array(".data line.data = true →
      (jsSplitChar ':' line).map jsTrim = [field, type] →
      findArrayType line.data = none →
      findArrayRefType line.data = some rt →
      findLitLazyParen "@ref(".data type.data = some refName →
      (lineStep ui σ line =
        (handleAttributes
           ((extractAttributes type).filter (fun a => !(containsSub refName.data a.data)))
           field type
           { schema := [("type", .jstr "array"),
                        ("items", .jobj [("$ref", .jstr ("#/$defs/" ++ jsToLower refName))])],
             ctx := mkCtx ui σ, perms := σ.fieldPermissions }).bind (commitField σ field)) ∧
      (∀ a ∈ (extractAttributes type).filter (fun a => !(containsSub refName.data a.data)),
        containsSub refName.data a.data = false)) := by
  refine ⟨by rfl, ?_, ?_⟩
  · intro ui σ line field type t hd hm hb hif hbr hso hcan harr hsplit hty
    unfold lineStep
    rw [hd, hm, hb, hif, hbr, hso, hcan, harr]
    simp only [Bool.false_eq_true, if_false, if_true]
    rw [hsplit]
    simp only []
    rw [hty]
    cases hha : handleAttributes (extractAttributes type) field type
        { schema := [("type", .jstr "array"), ("items", .jobj [("type", .jstr t)])],
          ctx := mkCtx ui σ, perms := σ.fieldPermissions } with
    | none => simp only [extractAttributes] at hha; simp [extractAttributes, hha]
    | some st' => simp only [extractAttributes] at hha; simp [extractAttributes, hha]
  · intro ui σ line field type rt refName hd hm hb hif hbr hso hcan harr hsplit hty hrt href
    constructor
    · unfold lineStep
      rw [hd, hm, hb, hif, hbr, hso, hcan, harr]
      simp only [Bool.false_eq_true, if_false, if_true]
      rw [hsplit]
      simp only []
      rw [hty, hrt, href]
      cases hha : handleAttributes
          ((extractAttributes type).filter (fun a => !(containsSub refName.data a.data)))
          field type
          { schema := [("type", .jstr "array"),
                       ("items", .jobj [("$ref", .jstr ("#/$defs/" ++ jsToLower refName))])],
            ctx := mkCtx ui σ, perms := σ.fieldPermissions } with
      | none => simp only [extractAttributes] at hha; simp [extractAttributes, hha]
      | some st' => simp only [extractAttributes] at hha; simp [extractAttributes, hha]
    · intro a ha
      have := List.of_mem_filter ha
      simpa using this

/-- **C5 witness.** -/
theorem C5_array_resolver_witness :
    lineStep false initPState "tags: array(string) @minItems(1)" =
      (handleAttributes (extractAttributes "array(string) @minItems(1)")
         "tags" "array(string) @minItems(1)"
         { schema := [("type", .jstr "array"), ("items", .jobj [("type", .jstr "string")])],
           ctx := mkCtx false initPState, perms := initPState.fieldPermissions }).bind
        (commitField initPState "tags") ∧
    lineStep false initPState "members: array(@ref(Member))" =
      (handleAttributes
         ((extractAttributes "array(@ref(Member))").filter
            (fun a => !(containsSub "Member".data a.data)))
         "members" "array(@ref(Member))"
         { schema := [("type", .jstr "array"), ("items", .jobj [("$ref", .jstr "#/$defs/member")])],
           ctx := mkCtx false initPState, perms := initPState.fieldPermissions }).bind
        (commitField initPState "members") := by
  constructor
  · exact C5_array_resolver.2.1 false initPState "tags: array(string) @minItems(1)"
      "tags" "array(string) @minItems(1)" "string"
      rfl rfl rfl rfl rfl rfl rfl rfl rfl rfl
  · exact (C5_array_resolver.2.2 false initPState "members: array(@ref(Member))"
      "members" "array(@ref(Member))" "Member" "Member"
      rfl rfl rfl rfl rfl rfl rfl rfl rfl rfl rfl rfl).1

/-! ### C6 machinery: how a block-body line changes the required-field list -/

/-- What one attribute does to the context: the required-field list grows by
the field name exactly when the attribute is routed to the `@required`
branch; an undefined context stays undefined (or the step throws). -/
theorem attrStep_ctx_requiredFields (field type a : String) (st st' : AttrOut)
    (h : attrStep field type st a = some st') :
    (st.ctx = none → st'.ctx = none) ∧
    (∀ c, st.ctx = some c → ∃ u, st'.ctx = some
      ⟨c.requiredFields ++ (if attrIsRequired a then [field] else []), u⟩) := by
  have base : ∀ (he : st'.ctx = st.ctx) (hreq : attrIsRequired a = false),
      (st.ctx = none → st'.ctx = none) ∧
      (∀ c, st.ctx = some c → ∃ u, st'.ctx = some
        ⟨c.requiredFields ++ (if attrIsRequired a then [field] else []), u⟩) := by
    intro he hreq
    constructor
    · intro hn; rw [he, hn]
    · intro c hc
      refine ⟨c.ui, ?_⟩
      rw [he, hc, hreq]
      simp
  unfold attrStep at h
  by_cases hc0 : jsStartsWith a "@can" = true
  · rw [if_pos hc0] at h
    cases h
    exact base rfl (by simp [attrIsRequired, hc0])
  · rw [if_neg hc0] at h
    by_cases hc1 : jsStartsWith a "@enum" = true
    · rw [if_pos hc1] at h
      split at h
      · exact absurd h (by simp)
      · cases h
        exact base rfl (by simp [attrIsRequired, hc1])
    · rw [if_neg hc1] at h
      by_cases hc2 : jsStartsWith a "@ref" = true
      · rw [if_pos hc2] at h
        split at h
        · exact absurd h (by simp)
        · cases h
          exact base rfl (by simp [attrIsRequired, hc2])
      · rw [if_neg hc2] at h
        by_cases hc3 : jsStartsWith a "@required" = true
        · rw [if_pos hc3] at h
          split at h
          · exact absurd h (by simp)
          · next c hceq =>
            cases h
            constructor
            · intro hn
              rw [hn] at hceq
              exact absurd hceq (by simp)
            · intro c0 hc0x
              rw [hc0x] at hceq
              injection hceq with hceq
              subst hceq
              refine ⟨c0.ui, ?_⟩
              rw [if_pos (by simp [attrIsRequired, hc0, hc1, hc2, hc3])]
        · rw [if_neg hc3] at h
          by_cases hc4 : jsStartsWith a "@ui" = true
          · rw [if_pos hc4] at h
            split at h
            · exact absurd h (by simp)
            · next c hceq =>
              split at h
              · cases h
                exact base rfl (by simp [attrIsRequired, hc3])
              · next u hueq =>
                split at h
                · exact absurd h (by simp)
                · cases h
                  constructor
                  · intro hn
                    rw [hn] at hceq
                    exact absurd hceq (by simp)
                  · intro c0 hc0x
                    rw [hc0x] at hceq
                    injection hceq with hceq
                    subst hceq
                    simp [show attrIsRequired a = false from by simp [attrIsRequired, hc3]]
          · rw [if_neg hc4] at h
            by_cases hc5 : jsStartsWith a "@minItems" = true
            · rw [if_pos hc5] at h
              obtain ⟨w, hw⟩ := numKey_shape _ _ _ _ h
              subst hw
              exact base rfl (by simp [attrIsRequired, hc3])
            · rw [if_neg hc5] at h
              by_cases hc6 : jsStartsWith a "@maxItems" = true
              · rw [if_pos hc6] at h
                obtain ⟨w, hw⟩ := numKey_shape _ _ _ _ h
                subst hw
                exact base rfl (by simp [attrIsRequired, hc3])
              · rw [if_neg hc6] at h
                by_cases hc7 : jsStartsWith a "@uniqueItems" = true
                · rw [if_pos hc7] at h
                  cases h
                  exact base rfl (by simp [attrIsRequired, hc3])
                · rw [if_neg hc7] at h
                  by_cases hc8 : jsStartsWith a "@minLength" = true
                  · rw [if_pos hc8] at h
                    obtain ⟨w, hw⟩ := numKey_shape _ _ _ _ h
                    subst hw
                    exact base rfl (by simp [attrIsRequired, hc3])
                  · rw [if_neg hc8] at h
                    by_cases hc9 : jsStartsWith a "@maxLength" = true
                    · rw [if_pos hc9] at h
                      obtain ⟨w, hw⟩ := numKey_shape _ _ _ _ h
                      subst hw
                      exact base rfl (by simp [attrIsRequired, hc3])
                    · rw [if_neg hc9] at h
                      by_cases hc10 : jsStartsWith a "@exclusiveMinimum" = true
                      · rw [if_pos hc10] at h
                        obtain ⟨w, hw⟩ := numKey_shape _ _ _ _ h
                        subst hw
                        exact base rfl (by simp [attrIsRequired, hc3])
                      · rw [if_neg hc10] at h
                        by_cases hc11 : jsStartsWith a "@exclusiveMaximum" = true
                        · rw [if_pos hc11] at h
                          obtain ⟨w, hw⟩ := numKey_shape _ _ _ _ h
                          subst hw
                          exact base rfl (by simp [attrIsRequired, hc3])
                        · rw [if_neg hc11] at h
                          by_cases hc12 : jsStartsWith a "@minimum" = true
                          · rw [if_pos hc12] at h
                            obtain ⟨w, hw⟩ := numKey_shape _ _ _ _ h
                            subst hw
                            exact base rfl (by simp [attrIsRequired, hc3])
                          · rw [if_neg hc12] at h
                            by_cases hc13 : jsStartsWith a "@maximum" = true
                            · rw [if_pos hc13] at h
                              obtain ⟨w, hw⟩ := numKey_shape _ _ _ _ h
                              subst hw
                              exact base rfl (by simp [attrIsRequired, hc3])
                            · rw [if_neg hc13] at h
                              by_cases hc14 : jsStartsWith a "@multipleOf" = true
                              · rw [if_pos hc14] at h
                                obtain ⟨w, hw⟩ := numKey_shape _ _ _ _ h
                                subst hw
                                exact base rfl (by simp [attrIsRequired, hc3])
                              · rw [if_neg hc14] at h
                                by_cases hc15 : jsStartsWith a "@format" = true
                                · rw [if_pos hc15] at h
                                  split at h
                                  · exact absurd h (by simp)
                                  · split at h
                                    · cases h
                                      exact base rfl (by simp [attrIsRequired, hc3])
                                    · cases h
                                      exact base rfl (by simp [attrIsRequired, hc3])
                                · rw [if_neg hc15] at h
                                  by_cases hc16 : jsStartsWith a "@pattern" = true
                                  · rw [if_pos hc16] at h
                                    split at h
                                    · cases h
                                      exact base rfl (by simp [attrIsRequired, hc3])
                                    · cases h
                                      exact base rfl (by simp [attrIsRequired, hc3])
                                  · rw [if_neg hc16] at h
                                    by_cases hc17 : jsStartsWith a "@default" = true
                                    · rw [if_pos hc17] at h
                                      split at h
                                      · exact absurd h (by simp)
                                      · cases h
                                        exact base rfl (by simp [attrIsRequired, hc3])
                                    · rw [if_neg hc17] at h
                                      cases h
                                      exact base rfl (by simp [attrIsRequired, hc3])

theorem handleAttributes_ctx_requiredFields (attrs : List String) (field type : String)
    (st st' : AttrOut) (h : handleAttributes attrs field type st = some st') :
    (st.ctx = none → st'.ctx = none) ∧
    (∀ c, st.ctx = some c → ∃ u, st'.ctx = some
      ⟨c.requiredFields ++ List.replicate (attrs.countP attrIsRequired) field, u⟩) := by
  induction attrs generalizing st with
  | nil =>
    unfold handleAttributes at h
    simp only [List.foldlM, Option.pure_def, Option.some.injEq] at h
    subst h
    refine ⟨fun hn => hn, fun c hc => ⟨c.ui, ?_⟩⟩
    rw [hc]
    simp
  | cons a as ih =>
    unfold handleAttributes at h
    simp only [List.foldlM] at h
    cases hs : attrStep field type st a with
    | none => rw [hs] at h; exact absurd h (by simp)
    | some st1 =>
      rw [hs] at h
      replace h : as.foldlM (attrStep field type) st1 = some st' := h
      have h1 := attrStep_ctx_requiredFields field type a st st1 hs
      have h2 := ih st1 h
      constructor
      · intro hn
        exact h2.1 (h1.1 hn)
      · intro c hc
        obtain ⟨u1, hu1⟩ := h1.2 c hc
        obtain ⟨u2, hu2⟩ := h2.2 _ hu1
        refine ⟨u2, ?_⟩
        rw [hu2]
        by_cases hra : attrIsRequired a = true
        · simp [hra, List.countP_cons, List.replicate_succ, List.append_assoc]
        · simp only [Bool.not_eq_true] at hra
          simp [hra, List.countP_cons]

theorem setObjAt_spec (root : List (String × JVal)) (p : TPath)
    (o newO : List (String × JVal)) (hg : getObjAt root p = some o) :
    ∃ root', setObjAt root p newO = some root' ∧ getObjAt root' p = some newO := by
  cases p with
  | root => exact ⟨newO, rfl, rfl⟩
  | defObj n =>
    simp only [getObjAt] at hg
    split at hg
    · next defs heq =>
      split at hg
      · next o0 heq2 =>
        refine ⟨setKey root "$defs" (.jobj (setKey defs n (.jobj newO))), ?_, ?_⟩
        · simp only [setObjAt, heq, heq2]
        · simp only [getObjAt, lookupKey_setKey_self]
      · exact absurd hg (by simp)
    · exact absurd hg (by simp)
  | defItems n =>
    simp only [getObjAt] at hg
    split at hg
    · next defs heq =>
      split at hg
      · next o0 heq2 =>
        split at hg
        · next it heq3 =>
          refine ⟨setKey root "$defs" (.jobj (setKey defs n (.jobj (setKey o0 "items" (.jobj newO))))), ?_, ?_⟩
          · simp only [setObjAt, heq, heq2, heq3]
          · simp only [getObjAt, lookupKey_setKey_self]
        · exact absurd hg (by simp)
      · exact absurd hg (by simp)
    · exact absurd hg (by simp)

theorem commitField_spec (σ : PState) (field : String) (st' : AttrOut) (σ' : PState)
    (fr : Frame) (rest : List Frame) (newReq : List String) (u : Option (List (String × JVal)))
    (hstack : σ.stack = fr :: rest) (hcur : σ.cur = fr.path)
    (hctx : st'.ctx = some ⟨newReq, u⟩)
    (h : commitField σ field st' = some σ') :
    σ'.stack = { fr with requiredFields := newReq } :: rest ∧
    σ'.cur = σ.cur ∧ σ'.rules = σ.rules ∧ σ'.sortRules = σ.sortRules ∧
    σ'.breadcrumbRules = σ.breadcrumbRules ∧ σ'.permissions = σ.permissions ∧
    (∀ o, getObjAt σ.root σ.cur = some o →
      ∃ o', getObjAt σ'.root σ.cur = some o' ∧
        lookupKey o' "required" = lookupKey o "required") := by
  have hstack2 : (commitRS σ st').2 = { fr with requiredFields := newReq } :: rest := by
    unfold commitRS
    rw [hstack, hctx]
  have hroot1 : ∀ o, getObjAt σ.root σ.cur = some o →
      ∃ o1, getObjAt (commitRS σ st').1 σ.cur = some o1 ∧
        lookupKey o1 "required" = lookupKey o "required" := by
    intro o ho
    unfold commitRS
    rw [hstack, hctx]
    cases u with
    | none => exact ⟨o, ho, rfl⟩
    | some u0 =>
      simp only []
      rw [← hcur, ho]
      simp only []
      obtain ⟨root1, hset1, hget1⟩ := setObjAt_spec σ.root σ.cur o (setKey o "ui" (.jobj u0)) ho
      rw [hset1]
      simp only [Option.getD_some]
      exact ⟨_, hget1, lookupKey_setKey_ne _ _ _ _ (by decide)⟩
  unfold commitField at h
  split at h
  · exact absurd h (by simp)
  · next o1 hget1 =>
    split at h
    · next po hpo =>
      split at h
      · exact absurd h (by simp)
      · next root2 hset2 =>
        cases h
        refine ⟨hstack2, rfl, rfl, rfl, rfl, rfl, ?_⟩
        intro o ho
        obtain ⟨o1', hget1', hreq1⟩ := hroot1 o ho
        rw [hget1] at hget1'
        injection hget1' with hget1'
        subst hget1'
        obtain ⟨root2', hset2', hget2'⟩ := setObjAt_spec (commitRS σ st').1 σ.cur o1 _ hget1
        rw [hset2'] at hset2
        injection hset2 with hset2
        subst hset2
        refine ⟨_, hget2', ?_⟩
        rw [lookupKey_setKey_ne _ _ _ _ (by decide)]
        exact hreq1
    · exact absurd h (by simp)

/-- What one block-body line does to the state: the top frame's
required-field list grows by `lineReqCount` copies of `lineField`, every
accumulator is untouched, and the target object keeps its `required`
member. -/
theorem lineStep_body (ui : Bool) (σ σ' : PState) (l : String)
    (fr : Frame) (rest : List Frame)
    (hbody : isBlockBodyLine l = true)
    (hstack : σ.stack = fr :: rest) (hcur : σ.cur = fr.path)
    (h : lineStep ui σ l = some σ') :
    σ'.stack = { fr with requiredFields := fr.requiredFields ++
                   List.replicate (lineReqCount l) (lineField l) } :: rest ∧
    σ'.cur = σ.cur ∧ σ'.rules = σ.rules ∧ σ'.sortRules = σ.sortRules ∧
    σ'.breadcrumbRules = σ.breadcrumbRules ∧ σ'.permissions = σ.permissions ∧
    (∀ o, getObjAt σ.root σ.cur = some o →
      ∃ o', getObjAt σ'.root σ.cur = some o' ∧
        lookupKey o' "required" = lookupKey o "required") := by
  simp only [isBlockBodyLine, Bool.and_eq_true, Bool.not_eq_true'] at hbody
  obtain ⟨⟨⟨⟨⟨⟨hd, hm⟩, hb⟩, hif⟩, hbr⟩, hso⟩, hcan⟩ := hbody
  have hmk : mkCtx ui σ = some ⟨fr.requiredFields, if ui then uiAt σ.root fr.path else none⟩ := by
    unfold mkCtx
    rw [hstack]
  unfold lineStep at h
  rw [hd, hm, hb, hif, hbr, hso, hcan] at h
  simp only [Bool.false_eq_true, if_false] at h
  by_cases harr : containsSub "array(".data l.data = true
  · rw [if_pos harr] at h
    match hsp : (jsSplitChar ':' l).map jsTrim with
    | [] => rw [hsp] at h; exact absurd h (by simp)
    | [f1] => rw [hsp] at h; exact absurd h (by simp)
    | f1 :: t1 :: rest2 =>
      rw [hsp] at h
      simp only [] at h
      have hlf : lineField l = f1 := by
        unfold lineField
        rw [if_pos harr, hsp]
        rfl
      match hat : findArrayType l.data with
      | some t0 =>
        rw [hat] at h
        simp only [] at h
        have hlc : lineReqCount l = (eaScan t1.data).countP attrIsRequired := by
          unfold lineReqCount lineAttrs
          rw [if_pos harr, hsp]
          simp only []
          rw [hat]
          rfl
        match hha : handleAttributes (eaScan t1.data) f1 t1
            { schema := [("type", .jstr "array"), ("items", .jobj [("type", .jstr t0)])],
              ctx := mkCtx ui σ, perms := σ.fieldPermissions } with
        | none => rw [hha] at h; exact absurd h (by simp)
        | some stA =>
          rw [hha] at h
          simp only [] at h
          obtain ⟨u, hctx'⟩ := (handleAttributes_ctx_requiredFields _ _ _ _ _ hha).2 _ hmk
          have spec := commitField_spec σ f1 stA σ' fr rest _ u hstack hcur hctx' h
          rw [hlf, hlc]
          exact spec
      | none =>
        rw [hat] at h
        simp only [] at h
        match hart : findArrayRefType l.data with
        | some rt =>
          rw [hart] at h
          simp only [] at h
          match href : findLitLazyParen "@ref(".data t1.data with
          | none => rw [href] at h; exact absurd h (by simp)
          | some refName =>
            rw [href] at h
            simp only [] at h
            have hlc : lineReqCount l =
                ((eaScan t1.data).filter
                  (fun a => !(containsSub refName.data a.data))).countP attrIsRequired := by
              unfold lineReqCount lineAttrs
              rw [if_pos harr, hsp]
              simp only []
              rw [hat]
              simp only []
              rw [hart]
              simp only []
              rw [href]
              rfl
            match hha : handleAttributes
                ((eaScan t1.data).filter (fun a => !(containsSub refName.data a.data))) f1 t1
                { schema := [("type", .jstr "array"),
                             ("items", .jobj [("$ref", .jstr ("#/$defs/" ++ jsToLower refName))])],
                  ctx := mkCtx ui σ, perms := σ.fieldPermissions } with
            | none => rw [hha] at h; exact absurd h (by simp)
            | some stA =>
              rw [hha] at h
              simp only [] at h
              obtain ⟨u, hctx'⟩ := (handleAttributes_ctx_requiredFields _ _ _ _ _ hha).2 _ hmk
              have spec := commitField_spec σ f1 stA σ' fr rest _ u hstack hcur hctx' h
              rw [hlf, hlc]
              exact spec
        | none =>
          rw [hart] at h
          simp only [] at h
          injection h with h
          subst h
          have hlc : lineReqCount l = 0 := by
            unfold lineReqCount lineAttrs
            rw [if_pos harr, hsp]
            simp only []
            rw [hat]
            simp only []
            rw [hart]
            rfl
          rw [hlc]
          refine ⟨?_, rfl, rfl, rfl, rfl, rfl, fun o ho => ⟨o, ho, rfl⟩⟩
          rw [hstack]
          simp
  · rw [if_neg harr] at h
    have hlf : lineField l = jsTrim ⟨jsSubstringL l.data 0 (colonIdx l)⟩ := by
      unfold lineField
      rw [if_neg harr]
    have hlc : lineReqCount l =
        (eaScan (jsTrim ⟨jsSubstringL l.data (colonIdx l + 1)
          (l.data.length : Int)⟩).data).countP attrIsRequired := by
      unfold lineReqCount lineAttrs
      rw [if_neg harr]
      rfl
    match hha : handleAttributes
        (eaScan (jsTrim ⟨jsSubstringL l.data (colonIdx l + 1) (l.data.length : Int)⟩).data)
        (jsTrim ⟨jsSubstringL l.data 0 (colonIdx l)⟩)
        (jsTrim ⟨jsSubstringL l.data (colonIdx l + 1) (l.data.length : Int)⟩)
        { schema := [("type", .jstr (jsTrim ((jsSplitChar '@'
            (jsTrim ⟨jsSubstringL l.data (colonIdx l + 1) (l.data.length : Int)⟩)).headD "")))],
          ctx := mkCtx ui σ, perms := σ.fieldPermissions } with
    | none => rw [hha] at h; exact absurd h (by simp)
    | some stA =>
      rw [hha] at h
      simp only [] at h
      obtain ⟨u, hctx'⟩ := (handleAttributes_ctx_requiredFields _ _ _ _ _ hha).2 _ hmk
      have spec := commitField_spec σ _ stA σ' fr rest _ u hstack hcur hctx' h
      rw [hlf, hlc]
      exact spec

/-- Running every body line of a block: the top frame accumulates
`reqOfLines`, the accumulators and the document's `required` members are
untouched. -/
theorem runBody (ui : Bool) (flds : List String) :
    ∀ (σ σ' : PState) (fr : Frame) (rest : List Frame),
    (∀ l ∈ flds, isBlockBodyLine l = true) →
    σ.stack = fr :: rest → σ.cur = fr.path →
    flds.foldlM (lineStep ui) σ = some σ' →
    σ'.stack = { fr with requiredFields := fr.requiredFields ++ reqOfLines flds } :: rest ∧
    σ'.cur = σ.cur ∧ σ'.rules = σ.rules ∧ σ'.sortRules = σ.sortRules ∧
    σ'.breadcrumbRules = σ.breadcrumbRules ∧ σ'.permissions = σ.permissions ∧
    (∀ o, getObjAt σ.root σ.cur = some o →
      ∃ o', getObjAt σ'.root σ.cur = some o' ∧
        lookupKey o' "required" = lookupKey o "required") := by
  induction flds with
  | nil =>
    intro σ σ' fr rest _ hstack hcur h
    replace h : some σ = some σ' := h
    injection h with h
    subst h
    refine ⟨?_, rfl, rfl, rfl, rfl, rfl, fun o ho => ⟨o, ho, rfl⟩⟩
    rw [hstack]
    simp [reqOfLines]
  | cons l ls ih =>
    intro σ σ' fr rest hbody hstack hcur h
    replace h : (lineStep ui σ l).bind (fun σ1 => ls.foldlM (lineStep ui) σ1) = some σ' := h
    match h1 : lineStep ui σ l with
    | none => rw [h1] at h; exact absurd h (by simp)
    | some σ1 =>
      rw [h1] at h
      simp only [Option.some_bind] at h
      obtain ⟨hs1, hc1, hr1, hso1, hb1, hp1, hq1⟩ :=
        lineStep_body ui σ σ1 l fr rest (hbody l (by simp)) hstack hcur h1
      have hcur1 : σ1.cur =
          ({ fr with requiredFields := fr.requiredFields ++
               List.replicate (lineReqCount l) (lineField l) } : Frame).path := by
        rw [hc1, hcur]
      obtain ⟨hs2, hc2, hr2, hso2, hb2, hp2, hq2⟩ :=
        ih σ1 σ' _ rest (fun x hx => hbody x (by simp [hx])) hs1 hcur1 h
      refine ⟨?_, ?_, ?_, ?_, ?_, ?_, ?_⟩
      · rw [hs2]
        simp [reqOfLines, List.append_assoc]
      · rw [hc2, hc1]
      · rw [hr2, hr1]
      · rw [hso2, hso1]
      · rw [hb2, hb1]
      · rw [hp2, hp1]
      · intro o ho
        obtain ⟨o1, ho1, hql⟩ := hq1 o ho
        rw [hc1] at hq2
        obtain ⟨o2, ho2, hql2⟩ := hq2 o1 ho1
        exact ⟨o2, ho2, hql2.trans hql⟩

theorem lookupKey_ite_setKey (b : Bool) (o : List (String × JVal)) (k k' : String) (v : JVal)
    (h : k' ≠ k) :
    lookupKey (if b then o else setKey o k v) k' = lookupKey o k' := by
  cases b
  · simp [lookupKey_setKey_ne _ _ _ _ h]
  · simp

/-- The `}` branch of the dispatcher: pop the frame, and the popped frame's
object gains `required` exactly when the accumulated list is nonempty; the
`allOf`/`sort`/`breadcrumb`/`permissions` attachments never touch it. -/
theorem lineStep_close (ui : Bool) (σ : PState) (fr : Frame) (rest : List Frame)
    (obj : List (String × JVal))
    (hstack : σ.stack = fr :: rest)
    (hobj : getObjAt σ.root fr.path = some obj) :
    ∃ root', (lineStep ui σ "\x7d" = some { (resetAccums σ) with root := root', stack := rest, cur := (match rest with | fr2 :: _ => fr2.path | [] => fr.path) }) ∧
      ∃ oF, getObjAt root' fr.path = some oF ∧
        lookupKey oF "required" =
          (if fr.requiredFields.isEmpty then lookupKey obj "required"
           else some (.jarr (fr.requiredFields.map .jstr))) := by
  have hg1 : jsStartsWith "\x7d" "def " = false := rfl
  have hg2 : jsStartsWith "\x7d" "model " = false := rfl
  have hg3 : jsStartsWith "\x7d" "\x7d" = true := rfl
  obtain ⟨root', hset, hget⟩ := setObjAt_spec σ.root fr.path obj _ hobj
  refine ⟨root', ?_, _, hget, ?_⟩
  · simp only [lineStep, hg1, hg2, hg3, Bool.false_eq_true, if_false, if_true, hstack, hobj]
    rw [hset]
    cases rest <;> rfl
  rw [lookupKey_ite_setKey _ _ _ _ _ (by decide),
      lookupKey_ite_setKey _ _ _ _ _ (by decide),
      lookupKey_ite_setKey _ _ _ _ _ (by decide),
      lookupKey_ite_setKey _ _ _ _ _ (by decide),
      lookupKey_ite_setKey _ _ _ _ _ (by decide)]
  by_cases he : fr.requiredFields.isEmpty <;> simp [he, lookupKey_setKey_self]

/-- Under the one-`@required`-per-line hypothesis the accumulated pushes are
the required-carrying lines' field names in order. -/
theorem reqOfLines_eq_filter (flds : List String)
    (honce : ∀ l ∈ flds, lineReqCount l ≤ 1) :
    reqOfLines flds = (flds.filter (fun l => lineReqCount l != 0)).map lineField := by
  induction flds with
  | nil => rfl
  | cons l ls ih =>
    have h1 := honce l (by simp)
    have ihh := ih (fun x hx => honce x (by simp [hx]))
    match hc : lineReqCount l with
    | 0 => simp [reqOfLines, hc, ihh]
    | 1 => simp [reqOfLines, hc, ihh, List.replicate]
    | n + 2 =>
      rw [hc] at h1
      omega

/-- C6 (corrected): run a block's body lines and its closing `}` from a
freshly opened frame whose object has no `required` member yet. The object
gains a `required` array exactly when some line carries `@required`, and the
array lists the `@required`-carrying lines' field names in order. Under the
amendment that no two body lines share a field name (each line carrying
`@required` at most once), a field with `@required` appears in the array
exactly once and a field without it never appears. Without the amendment
the original exactly-once claim fails: see the counterexample. -/
theorem C6_required_propagation (ui : Bool) (σ0 σf : PState)
    (p : TPath) (o0 : List (String × JVal)) (flds : List String)
    (hstack : σ0.stack = [⟨p, []⟩]) (hcur : σ0.cur = p)
    (hobj : getObjAt σ0.root p = some o0)
    (hreq : lookupKey o0 "required" = none)
    (hbody : ∀ l ∈ flds, isBlockBodyLine l = true)
    (hnodup : (flds.map lineField).Nodup)
    (honce : ∀ l ∈ flds, lineReqCount l ≤ 1)
    (hrun : (flds ++ ["\x7d"]).foldlM (lineStep ui) σ0 = some σf) :
    ∃ oF, getObjAt σf.root p = some oF ∧
      lookupKey oF "required" =
        (if flds.filter (fun l => lineReqCount l != 0) = [] then none
         else some (.jarr (((flds.filter (fun l => lineReqCount l != 0)).map
             lineField).map .jstr))) ∧
      (∀ l ∈ flds, lineReqCount l = 1 →
        ((flds.filter (fun l => lineReqCount l != 0)).map lineField).count (lineField l) = 1) ∧
      (∀ l ∈ flds, lineReqCount l = 0 →
        lineField l ∉ (flds.filter (fun l => lineReqCount l != 0)).map lineField) := by
  rw [foldlM_append_option] at hrun
  match h1 : flds.foldlM (lineStep ui) σ0 with
  | none => rw [h1] at hrun; exact absurd hrun (by simp)
  | some σ1 =>
    rw [h1] at hrun
    simp only [Option.some_bind] at hrun
    obtain ⟨hs1, hc1, _, _, _, _, hq1⟩ :=
      runBody ui flds σ0 σ1 ⟨p, []⟩ [] hbody hstack (by rw [hcur]) h1
    have hs1' : σ1.stack = (⟨p, reqOfLines flds⟩ : Frame) :: [] := by
      rw [hs1]
      simp
    obtain ⟨obj1, hobj1, hreq1⟩ := hq1 o0 (by rw [hcur]; exact hobj)
    rw [hcur] at hobj1
    obtain ⟨root', hstep, oF, hgetF, hlookF⟩ :=
      lineStep_close ui σ1 ⟨p, reqOfLines flds⟩ [] obj1 hs1' hobj1
    replace hrun : (lineStep ui σ1 "\x7d").bind
        (fun σ2 => List.foldlM (lineStep ui) σ2 []) = some σf := hrun
    rw [hstep] at hrun
    simp only [Option.some_bind] at hrun
    replace hrun : some { resetAccums σ1 with root := root', stack := ([] : List Frame), cur := p } = some σf := hrun
    injection hrun with hrun
    subst hrun
    have hform := reqOfLines_eq_filter flds honce
    refine ⟨oF, hgetF, ?_, ?_, ?_⟩
    · rw [hlookF, hreq1, hreq]
      simp only []
      rw [hform]
      by_cases hfe : flds.filter (fun l => lineReqCount l != 0) = []
      · simp [hfe]
      · simp [hfe]
    · intro l hl hc1l
      have hsubl : ((flds.filter (fun l => lineReqCount l != 0)).map lineField).Sublist
          (flds.map lineField) :=
        List.Sublist.map lineField (List.filter_sublist flds)
      have hnd := List.Nodup.sublist hsubl hnodup
      have hmem : lineField l ∈ (flds.filter (fun l => lineReqCount l != 0)).map lineField :=
        List.mem_map_of_mem _ (List.mem_filter.2 ⟨hl, by simp [hc1l]⟩)
      exact List.count_eq_one_of_mem hnd hmem
    · intro l hl hc0 hmem
      obtain ⟨l2, hl2mem, hfeq⟩ := List.mem_map.1 hmem
      obtain ⟨hl2flds, hl2p⟩ := List.mem_filter.1 hl2mem
      have heq : l2 = l := List.inj_on_of_nodup_map hnodup hl2flds hl hfeq
      subst heq
      simp [hc0] at hl2p

/-- C6 counterexample to the claim as stated: two body lines with the same
field name, each carrying `@required` exactly once, put the name into the
block's `required` array twice. -/
theorem C6_counterexample_duplicate_field :
    lineReqCount "a: string @required" = 1 ∧
    parseDSL "model M\na: string @required\na: string @required\n\x7d" false =
      some (.jobj [("$defs", .jobj []), ("title", .jstr "m"), ("type", .jstr "object"),
        ("properties", .jobj [("a", .jobj [("type", .jstr "string")])]),
        ("required", .jarr [.jstr "a", .jstr "a"])]) :=
  ⟨rfl, rfl⟩

/-- Witness: a two-line block (field `a` with `@required`, field `b`
without) run through the dispatcher's body and close steps. -/
theorem C6_required_propagation_witness :
    ∃ oF, getObjAt [("$defs", JVal.jobj []), ("title", JVal.jstr "m"),
        ("type", JVal.jstr "object"),
        ("properties", JVal.jobj [("a", JVal.jobj [("type", JVal.jstr "string")]),
          ("b", JVal.jobj [("type", JVal.jstr "string")])]),
        ("required", JVal.jarr [JVal.jstr "a"])] TPath.root = some oF ∧
      lookupKey oF "required" =
        (if ["a: string @required", "b: string"].filter (fun l => lineReqCount l != 0) = []
         then none
         else some (.jarr (((["a: string @required", "b: string"].filter
             (fun l => lineReqCount l != 0)).map lineField).map .jstr))) ∧
      (∀ l ∈ ["a: string @required", "b: string"], lineReqCount l = 1 →
        ((["a: string @required", "b: string"].filter
          (fun l => lineReqCount l != 0)).map lineField).count (lineField l) = 1) ∧
      (∀ l ∈ ["a: string @required", "b: string"], lineReqCount l = 0 →
        lineField l ∉ (["a: string @required", "b: string"].filter
          (fun l => lineReqCount l != 0)).map lineField) :=
  C6_required_propagation false
    { root := [("$defs", JVal.jobj []), ("title", JVal.jstr "m"), ("type", JVal.jstr "object"),
        ("properties", JVal.jobj [])],
      rules := [], sortRules := [], breadcrumbRules := [], permissions := [],
      fieldPermissions := [], stack := [⟨TPath.root, []⟩], cur := TPath.root }
    { root := [("$defs", JVal.jobj []), ("title", JVal.jstr "m"), ("type", JVal.jstr "object"),
        ("properties", JVal.jobj [("a", JVal.jobj [("type", JVal.jstr "string")]),
          ("b", JVal.jobj [("type", JVal.jstr "string")])]),
        ("required", JVal.jarr [JVal.jstr "a"])],
      rules := [], sortRules := [], breadcrumbRules := [], permissions := [],
      fieldPermissions := [], stack := [], cur := TPath.root }
    TPath.root
    [("$defs", JVal.jobj []), ("title", JVal.jstr "m"), ("type", JVal.jstr "object"),
      ("properties", JVal.jobj [])]
    ["a: string @required", "b: string"]
    rfl rfl rfl rfl (by decide) (by decide) (by decide) rfl

theorem jsSubstringL_nat (l : List Char) (a b : Nat) (hab : a ≤ b) (hb : b ≤ l.length) :
    jsSubstringL l (a : Int) (b : Int) = (l.drop a).take (b - a) := by
  unfold jsSubstringL
  simp only []
  have h1 : (min (max (a : Int) 0) (l.length : Int)).toNat = a := by omega
  have h2 : (min (max (b : Int) 0) (l.length : Int)).toNat = b := by omega
  rw [h1, h2, Nat.min_eq_left hab, Nat.max_eq_right hab]

/-- C8: the compiler is deterministic and consults no state besides its
arguments — any two derivations of the same run agree, any two compiled
documents of the same DSL string agree, and `parseDSL` (whose entire state,
`PState`, is created fresh by each call) realizes the derivation. -/
theorem C8_parseDSL_deterministic :
    (∀ (ui : Bool) (σ : PState) (ls : List String) (r1 r2 : Option PState),
      RunRel ui σ ls r1 → RunRel ui σ ls r2 → r1 = r2) ∧
    (∀ (dsl : String) (ui : Bool) (r1 r2 : Option JVal),
      ParseRel dsl ui r1 → ParseRel dsl ui r2 → r1 = r2) ∧
    (∀ (dsl : String) (ui : Bool), ParseRel dsl ui (parseDSL dsl ui)) := by
  have hrun : ∀ (ui : Bool) (σ : PState) (ls : List String) (r1 r2 : Option PState),
      RunRel ui σ ls r1 → RunRel ui σ ls r2 → r1 = r2 := by
    intro ui σ ls r1 r2 h1
    induction h1 with
    | nil σ =>
      intro h2
      cases h2
      rfl
    | consOk σ σ' l ls r hstep _ ih =>
      intro h2
      cases h2 with
      | consOk _ σ2 _ _ _ hstep2 htail2 =>
        rw [hstep] at hstep2
        injection hstep2 with hstep2
        subst hstep2
        exact ih htail2
      | consFail _ _ _ hstep2 =>
        rw [hstep] at hstep2
        exact absurd hstep2 (by simp)
    | consFail σ l ls hstep =>
      intro h2
      cases h2 with
      | consOk _ σ2 _ _ _ hstep2 _ =>
        rw [hstep] at hstep2
        exact absurd hstep2 (by simp)
      | consFail => rfl
  have hreal : ∀ (ui : Bool) (ls : List String) (σ : PState),
      RunRel ui σ ls (ls.foldlM (lineStep ui) σ) := by
    intro ui ls
    induction ls with
    | nil =>
      intro σ
      exact RunRel.nil σ
    | cons l ls ih =>
      intro σ
      match hstep : lineStep ui σ l with
      | some σ' =>
        have hfold : (l :: ls).foldlM (lineStep ui) σ = ls.foldlM (lineStep ui) σ' := by
          replace hfold : (l :: ls).foldlM (lineStep ui) σ =
            (lineStep ui σ l).bind (fun x => ls.foldlM (lineStep ui) x) := rfl
          rw [hfold, hstep]
          rfl
        rw [hfold]
        exact RunRel.consOk σ σ' l ls _ hstep (ih σ')
      | none =>
        have hfold : (l :: ls).foldlM (lineStep ui) σ = none := by
          replace hfold : (l :: ls).foldlM (lineStep ui) σ =
            (lineStep ui σ l).bind (fun x => ls.foldlM (lineStep ui) x) := rfl
          rw [hfold, hstep]
          rfl
        rw [hfold]
        exact RunRel.consFail σ l ls hstep
  refine ⟨hrun, ?_, ?_⟩
  · intro dsl ui r1 r2 ⟨res1, hd1, he1⟩ ⟨res2, hd2, he2⟩
    rw [he1, he2, hrun ui initPState (linesOf dsl) res1 res2 hd1 hd2]
  · intro dsl ui
    exact ⟨runLines ui initPState (linesOf dsl), hreal ui (linesOf dsl) initPState, rfl⟩

/-- Witness: the empty program derives (and `parseDSL` returns) the bare
`{$defs: {}}` document. -/
theorem C8_parseDSL_deterministic_witness :
    ParseRel "" false (some (.jobj [("$defs", .jobj [])])) :=
  show ParseRel "" false (parseDSL "" false) from
    C8_parseDSL_deterministic.2.2 "" false

end LiteSpec
